import Mathlib

/-!
Verification of the note-sequence / tensor codecs of `music/src/core/data.ts`
(magenta-js).  The definitions below are a shallow embedding of the
TypeScript source: tensors are modelled as lists of numbers, the protobuf
`NoteSequence.Note` as a record with its protobuf defaults, and JavaScript
behaviours that the source relies on are modelled explicitly:

* `Array.prototype.sort` sorts in place (stably, by the comparator);
* `TensorBuffer.set` computes a flat index `row * stride + col` with no
  bounds check, so out-of-range (or NaN) flat indices are silent no-ops on
  the backing typed array, and a literal `-1` column index lands on the
  last column of the *previous* row;
* `Map.get` of an absent key yields `undefined`; `Math.pow(2, undefined)`
  is NaN, `x += NaN` is NaN, and `Int32Array` conversion maps NaN to 0;
* plain JS arrays grow on out-of-range writes, reading holes as
  `undefined`.
-/

namespace Magenta

/-- Model of `NoteSequence.Note`: the protobuf note record (defaults are the
protobuf defaults: numeric fields 0, booleans false). -/

structure Note where
  pitch : Nat := 0
  quantizedStartStep : Nat := 0
  quantizedEndStep : Nat := 0
  isDrum : Bool := false
  program : Nat := 0
  instrument : Nat := 0
deriving Repr, DecidableEq

/-- Model of `INoteSequence` restricted to the fields `data.ts` reads. -/

structure NoteSequence where
  notes : List Note := []
  totalQuantizedSteps : Nat := 0
deriving Repr, DecidableEq

/-- The two throw sites in `data.ts` (`MelodyConverter.toTensor`). -/

inductive ConversionError where
  | notMonophonic
  | pitchOutOfRange (pitch : Nat)
deriving Repr, DecidableEq

/-- Model of `this.numSteps || noteSequence.totalQuantizedSteps`: an unset (or 0)
`numSteps` falls back to the sequence's own step count (`||` treats both
`undefined` and `0` as falsy). -/

def resolvedNumSteps (numSteps : Nat) (ns : NoteSequence) : Nat :=
  if numSteps = 0 then ns.totalQuantizedSteps else numSteps

/-- Model of `tf.oneHot` of a single label: 1 at the label's column, 0 elsewhere
(an out-of-range label yields an all-zero row, as in tfjs). -/

def oneHot (label depth : Nat) : List Int :=
  (List.range depth).map (fun j => if j = label then 1 else 0)

/-- Scan of `argMax`: keeps the first index attaining the running maximum. -/

def jsArgMaxAux : List Int → Nat → Nat → Int → Nat
  | [], _, bi, _ => bi
  | v :: vs, i, bi, bv =>
    if bv < v then jsArgMaxAux vs (i + 1) i v else jsArgMaxAux vs (i + 1) bi bv

/-- Model of `tf.argMax` over one row: index of the first maximal entry (0 on an
empty row). -/

def jsArgMax : List Int → Nat
  | [] => 0
  | v :: vs => jsArgMaxAux vs 1 0 v

/-! ## MelodyConverter -/

/-- Constructor arguments of `MelodyConverter` (`numSteps := 0` stands for
an absent `numSteps`, which `||` treats like 0). -/

structure MelodyConverterArgs where
  numSteps : Nat := 0
  minPitch : Nat
  maxPitch : Nat
deriving Repr, DecidableEq

/-- State of a `MelodyConverter` after construction. -/

structure MelodyConverter where
  numSteps : Nat
  minPitch : Nat
  maxPitch : Nat
deriving Repr, DecidableEq

def MelodyConverter.NOTE_OFF : Nat := 1

def MelodyConverter.FIRST_PITCH : Nat := 2

def MelodyConverter.fromArgs (a : MelodyConverterArgs) : MelodyConverter :=
  { numSteps := a.numSteps, minPitch := a.minPitch, maxPitch := a.maxPitch }

/-- Computes `this.depth = args.maxPitch - args.minPitch + 1 + this.FIRST_PITCH`. -/

def MelodyConverter.depth (c : MelodyConverter) : Nat :=
  c.maxPitch - c.minPitch + 1 + MelodyConverter.FIRST_PITCH

/-- Stable insertion of a note into a start-step-sorted list: the note
goes after every note whose start step is at most its own, so elements
with equal keys keep their original relative order. -/

def melInsert (n : Note) : List Note → List Note
  | [] => [n]
  | m :: ms =>
    if m.quantizedStartStep ≤ n.quantizedStartStep then m :: melInsert n ms
    else n :: m :: ms

/-- Model of `noteSequence.notes.sort((n1, n2) => n1.quantizedStartStep -
n2.quantizedStartStep)`: a stable ascending sort by start step
(ECMAScript guarantees `Array.prototype.sort` stable, and every stable
sort by the same key computes the same list, here realised as a stable
insertion sort). -/

def melSort (notes : List Note) : List Note :=
  notes.foldl (fun acc n => melInsert n acc) []

/-- One iteration of the `sortedNotes.forEach` body of
`MelodyConverter.toTensor`: the state is the label buffer (an int32
typed-array of length `numSteps`, on which out-of-range `set`s are silent
no-ops, matching `List.set`) together with `lastEnd`.  Throws become
`Except.error`. -/

def MelodyConverter.encodeNote (c : MelodyConverter) (st : List Nat × Int)
    (n : Note) : Except ConversionError (List Nat × Int) :=
  if (n.quantizedStartStep : Int) < st.2 then
    .error .notMonophonic
  else if n.pitch < c.minPitch ∨ c.maxPitch < n.pitch then
    .error (.pitchOutOfRange n.pitch)
  else
    .ok ((st.1.set n.quantizedStartStep
            (n.pitch - c.minPitch + MelodyConverter.FIRST_PITCH)).set
          n.quantizedEndStep MelodyConverter.NOTE_OFF,
         (n.quantizedEndStep : Int))

/-- Model of `MelodyConverter.toTensor` (data.ts:327-347): sort by start step, write
a pitch-on label at each start and `NOTE_OFF` at each end while checking
monophony and pitch range, then one-hot the label vector. -/

def MelodyConverter.toTensor (c : MelodyConverter) (ns : NoteSequence) :
    Except ConversionError (List (List Int)) := do
  let numSteps := resolvedNumSteps c.numSteps ns
  let st ← (melSort ns.notes).foldlM c.encodeNote
    (List.replicate numSteps 0, (-1 : Int))
  pure (st.1.map (fun l => oneHot l c.depth))

/-- The input sequence as it stands after `MelodyConverter.toTensor`
returns (or throws): `Array.prototype.sort` reordered `notes` in place
(the sort completes before the `forEach` runs), and no note field was
assigned. -/

def melToTensorPost (ns : NoteSequence) : NoteSequence :=
  { ns with notes := melSort ns.notes }

/-- The loop of `MelodyConverter.toNoteSequence` over the label vector:
`s` is the current step, the third argument the open note (pitch, start)
if any; at the end of the labels any open note is closed at the current
step (which is then `labels.length`). -/

def melDecodeAux (minPitch : Nat) :
    List Nat → Nat → Option (Nat × Nat) → List Note
  | [], s, curr =>
    match curr with
    | none => []
    | some (p, st) => [{ pitch := p, quantizedStartStep := st, quantizedEndStep := s }]
  | l :: ls, s, curr =>
    if l = 0 then
      melDecodeAux minPitch ls (s + 1) curr
    else if l = 1 then
      match curr with
      | none => melDecodeAux minPitch ls (s + 1) none
      | some (p, st) =>
        { pitch := p, quantizedStartStep := st, quantizedEndStep := s } ::
          melDecodeAux minPitch ls (s + 1) none
    else
      match curr with
      | none =>
        melDecodeAux minPitch ls (s + 1)
          (some (l - MelodyConverter.FIRST_PITCH + minPitch, s))
      | some (p, st) =>
        { pitch := p, quantizedStartStep := st, quantizedEndStep := s } ::
          melDecodeAux minPitch ls (s + 1)
            (some (l - MelodyConverter.FIRST_PITCH + minPitch, s))

/-- Model of `MelodyConverter.toNoteSequence` (data.ts:349-383): arg-max each row
to a label, then scan the labels keeping an open-note cursor. -/

def MelodyConverter.toNoteSequence (c : MelodyConverter)
    (oh : List (List Int)) : NoteSequence :=
  { notes := melDecodeAux c.minPitch (oh.map jsArgMax) 0 none }

/-! ## DrumsConverter and DrumsOneHotConverter -/

def DEFAULT_DRUM_PITCH_CLASSES : List (List Nat) :=
  [[36, 35],
   [38, 27, 28, 31, 32, 33, 34, 37, 39, 40, 56, 65, 66, 75, 85],
   [42, 44, 54, 68, 69, 70, 71, 73, 78, 80],
   [46, 67, 72, 74, 79, 81],
   [45, 29, 41, 61, 64, 84],
   [48, 47, 60, 63, 77, 86, 87],
   [50, 30, 43, 62, 76, 83],
   [49, 55, 57, 58],
   [51, 52, 53, 59, 82]]

/-- Constructor arguments of `DrumsConverter` (`none` = `pitchClasses`
absent, which selects the default table). -/

structure DrumsConverterArgs where
  numSteps : Nat := 0
  pitchClasses : Option (List (List Nat)) := none
deriving Repr, DecidableEq

/-- State of a `DrumsConverter` after construction. -/

structure DrumsConverter where
  numSteps : Nat
  pitchClasses : List (List Nat)
deriving Repr, DecidableEq

def DrumsConverter.fromArgs (a : DrumsConverterArgs) : DrumsConverter :=
  { numSteps := a.numSteps,
    pitchClasses := a.pitchClasses.getD DEFAULT_DRUM_PITCH_CLASSES }

/-- The `pitchToClass` map built in the constructor: classes are visited
in ascending index order and `Map.set` overwrites, so for a pitch listed
in several classes the last class wins; an unlisted pitch yields
`undefined` (`none`). -/

def pitchToClass (pcs : List (List Nat)) (p : Nat) : Option Nat :=
  (List.range pcs.length).foldl
    (fun m c => if p ∈ pcs.getD c [] then some c else m) none

/-- Computes `this.depth = this.pitchClasses.length` of `DrumsConverter`. -/

def DrumsConverter.depth (c : DrumsConverter) : Nat := c.pitchClasses.length

/-- Computes `this.depth = Math.pow(2, this.pitchClasses.length)` of
`DrumsOneHotConverter`. -/

def DrumsOneHotConverter.depth (c : DrumsConverter) : Nat :=
  2 ^ c.pitchClasses.length

/-- A write into a `tf.buffer` typed array at a flat index that may be
negative (literal `-1` column), out of range, or NaN (`none`, from an
`undefined` class lookup): tfjs computes `row * stride + col` without
bounds checks and the typed array silently drops any write whose index is
not in range. -/

def bufSetFlat (buf : List Int) (idx : Option Int) (v : Int) : List Int :=
  match idx with
  | none => buf
  | some i => if 0 ≤ i ∧ i < (buf.length : Int) then buf.set i.toNat v else buf

/-- Model of `DrumsConverter.toTensor` (data.ts:178-191) on the flat backing array
of the `[numSteps, pitchClasses.length + 1]` buffer.  The column index
`-1` is *not* Python-style: the flat index `i * width - 1` lands on the
last column of row `i - 1` (and is a dropped out-of-range write for
`i = 0`); an unmapped pitch makes the class write a NaN-indexed no-op
while the `-1` write still happens. -/

def DrumsConverter.toTensor (c : DrumsConverter) (ns : NoteSequence) :
    List Int :=
  let numSteps := resolvedNumSteps c.numSteps ns
  let width := c.pitchClasses.length + 1
  let init := (List.range numSteps).foldl
    (fun buf i => bufSetFlat buf (some ((i * width : Nat) - 1)) 1)
    (List.replicate (numSteps * width) 0)
  ns.notes.foldl
    (fun buf n =>
      let buf := bufSetFlat buf
        ((pitchToClass c.pitchClasses n.pitch).map
          (fun cl => ((n.quantizedStartStep * width : Nat) : Int) + cl)) 1
      bufSetFlat buf (some ((n.quantizedStartStep * width : Nat) - 1)) 0)
    init

/-- A JavaScript number that is either an actual (natural) number or NaN
(`none`); NaN is absorbing for `+`. -/

def jsAdd : Option Nat → Option Nat → Option Nat
  | some a, some b => some (a + b)
  | _, _ => none

/-- Reading `labels[i]`: out-of-range reads (and holes) are `undefined`,
which the subsequent `+=` turns into NaN, so both are modelled as `none`. -/

def jsArrayGet (l : List (Option Nat)) (i : Nat) : Option Nat :=
  l.getD i none

/-- Writing `labels[i] = v`: a JS array grows on an out-of-range write,
with holes in between. -/

def jsArraySet (l : List (Option Nat)) (i : Nat) (v : Option Nat) :
    List (Option Nat) :=
  if i < l.length then l.set i v
  else l ++ List.replicate (i - l.length) none ++ [v]

/-- Model of `Int32Array` conversion of one entry: NaN becomes 0. -/

def jsToInt32 (x : Option Nat) : Nat := x.getD 0

/-- Model of `DrumsOneHotConverter.toTensor` (data.ts:274-281): per-step labels
`labels[start] += 2 ^ pitchToClass(pitch)` (NaN on an unmapped pitch),
cast to int32 and one-hot encoded at width `2 ^ classCount`. -/

def DrumsOneHotConverter.toTensor (c : DrumsConverter) (ns : NoteSequence) :
    List (List Int) :=
  let numSteps := resolvedNumSteps c.numSteps ns
  let labels := ns.notes.foldl
    (fun lab n =>
      jsArraySet lab n.quantizedStartStep
        (jsAdd (jsArrayGet lab n.quantizedStartStep)
          ((pitchToClass c.pitchClasses n.pitch).map (fun cl => 2 ^ cl))))
    (List.replicate numSteps (some 0))
  labels.map (fun x => oneHot (jsToInt32 x) (DrumsOneHotConverter.depth c))

/-- The loop of `DrumsConverter.toNoteSequence` over the decoded labels:
for each step `s` and class `p`, `labels[s] >> p & 1` selects a one-step
drum hit at the class's first listed pitch. -/

def drumsDecodeAux (pcs : List (List Nat)) : List Nat → Nat → List Note
  | [], _ => []
  | l :: ls, s =>
    ((List.range pcs.length).filterMap (fun p =>
      if (l >>> p) &&& 1 = 1 then
        some { pitch := (pcs.getD p []).headD 0, quantizedStartStep := s,
               quantizedEndStep := s + 1, isDrum := true }
      else none)) ++ drumsDecodeAux pcs ls (s + 1)

/-- Model of `DrumsConverter.toNoteSequence` (data.ts:193-211): arg-max each row,
then emit one one-step drum note per set bit of each label. -/

def DrumsConverter.toNoteSequence (c : DrumsConverter)
    (oh : List (List Int)) : NoteSequence :=
  { notes := drumsDecodeAux c.pitchClasses (oh.map jsArgMax) 0 }

/-! ## TrioConverter -/

def TrioConverter.MEL_PROG_RANGE : List Nat := [0, 31]

def TrioConverter.BASS_PROG_RANGE : List Nat := [32, 39]

structure TrioConverterArgs where
  numSteps : Nat := 0
  melArgs : MelodyConverterArgs
  bassArgs : MelodyConverterArgs
  drumsArgs : DrumsConverterArgs
deriving Repr, DecidableEq

structure TrioConverter where
  numSteps : Nat
  melConverter : MelodyConverter
  bassConverter : MelodyConverter
  drumsConverter : DrumsConverter
deriving Repr, DecidableEq

/-- The `TrioConverter` constructor (data.ts:400-412).  It assigns
`args.numSteps` into the three sub-argument records *before* building the
sub-converters; since `args` is the caller's object, the mutation is
visible to the caller, so the model returns the constructed converter
together with the argument record as it stands after construction. -/

def TrioConverter.construct (args : TrioConverterArgs) :
    TrioConverter × TrioConverterArgs :=
  let args' : TrioConverterArgs :=
    { args with
      melArgs := { args.melArgs with numSteps := args.numSteps }
      bassArgs := { args.bassArgs with numSteps := args.numSteps }
      drumsArgs := { args.drumsArgs with numSteps := args.numSteps } }
  ({ numSteps := args'.numSteps
     melConverter := MelodyConverter.fromArgs args'.melArgs
     bassConverter := MelodyConverter.fromArgs args'.bassArgs
     drumsConverter := DrumsConverter.fromArgs args'.drumsArgs },
   args')

def TrioConverter.depth (c : TrioConverter) : Nat :=
  c.melConverter.depth + c.bassConverter.depth +
    DrumsOneHotConverter.depth c.drumsConverter

/-- The melody-track filter of `TrioConverter.toTensor`:
`!n.isDrum && n.program >= MEL_PROG_RANGE[0] && n.program <= MEL_PROG_RANGE[1]`. -/

def trioMelFilter (n : Note) : Bool :=
  !n.isDrum && decide (TrioConverter.MEL_PROG_RANGE.getD 0 0 ≤ n.program) &&
    decide (n.program ≤ TrioConverter.MEL_PROG_RANGE.getD 1 0)

/-- The bass-track filter of `TrioConverter.toTensor`. -/

def trioBassFilter (n : Note) : Bool :=
  !n.isDrum && decide (TrioConverter.BASS_PROG_RANGE.getD 0 0 ≤ n.program) &&
    decide (n.program ≤ TrioConverter.BASS_PROG_RANGE.getD 1 0)

/-- Model of `TrioConverter.toTensor` (data.ts:414-435): clone the sequence three
times, keep only the notes of each partition, encode with the three
sub-converters and concatenate each row along the feature axis
(`tf.concat(…, -1)`). -/

def TrioConverter.toTensor (c : TrioConverter) (ns : NoteSequence) :
    Except ConversionError (List (List Int)) := do
  let melSeq : NoteSequence := { ns with notes := ns.notes.filter trioMelFilter }
  let bassSeq : NoteSequence := { ns with notes := ns.notes.filter trioBassFilter }
  let drumsSeq : NoteSequence := { ns with notes := ns.notes.filter (fun n => n.isDrum) }
  let t1 ← c.melConverter.toTensor melSeq
  let t2 ← c.bassConverter.toTensor bassSeq
  let t3 := DrumsOneHotConverter.toTensor c.drumsConverter drumsSeq
  pure (List.zipWith (· ++ ·) (List.zipWith (· ++ ·) t1 t2) t3)

/-- Model of `TrioConverter.toNoteSequence` (data.ts:437-466): split each row into
the three sub-converters' widths (`tf.split(th, [d1, d2, d3], -1)`),
decode each part, re-tag instruments/programs, and concatenate the note
lists in the order melody, bass, drums. -/

def TrioConverter.toNoteSequence (c : TrioConverter)
    (th : List (List Int)) : NoteSequence :=
  let d1 := c.melConverter.depth
  let d2 := c.bassConverter.depth
  let d3 := DrumsOneHotConverter.depth c.drumsConverter
  let ns := c.melConverter.toNoteSequence (th.map (fun r => r.take d1))
  let melNotes := ns.notes.map (fun n => { n with instrument := 0, program := 0 })
  let bassNs := c.bassConverter.toNoteSequence
    (th.map (fun r => (r.drop d1).take d2))
  let bassNotes := bassNs.notes.map (fun n =>
    { n with instrument := 1,
             program := TrioConverter.BASS_PROG_RANGE.getD 0 0 })
  let drumsNs := DrumsConverter.toNoteSequence c.drumsConverter
    (th.map (fun r => ((r.drop d1).drop d2).take d3))
  let drumNotes := drumsNs.notes.map (fun n => { n with instrument := 2 })
  { notes := melNotes ++ bassNotes ++ drumNotes
    totalQuantizedSteps := ns.totalQuantizedSteps }

/-- Post-state of the input: `DrumsConverter.toTensor` reads `noteSequence.notes` with `forEach`
and never assigns into the argument, so the input sequence after the call
is the input itself. -/

def drumsToTensorPost (ns : NoteSequence) : NoteSequence := ns

/-- Post-state of the input: `TrioConverter.toTensor` assigns fresh `filter` results to the
`notes` of three clones; the melody/bass sub-encoders sort those fresh
arrays, not the caller's array, and no note field is assigned, so the
input sequence after the call is the input itself. -/

def trioToTensorPost (ns : NoteSequence) : NoteSequence := ns

/-- Just the pitch and step fields of a note, all other fields at their
protobuf defaults — the shape in which `MelodyConverter.toNoteSequence`
rebuilds notes. -/

def plainNote (n : Note) : Note :=
  { pitch := n.pitch
    quantizedStartStep := n.quantizedStartStep
    quantizedEndStep := n.quantizedEndStep }

/-- The triple a note is compared by in the round-trip claims. -/

def noteTriple (n : Note) : Nat × Nat × Nat :=
  (n.pitch, n.quantizedStartStep, n.quantizedEndStep)

/-- Decidable equality for `Except` results, used to evaluate concrete
encode outcomes. -/

instance exceptDecEq {e a : Type} [DecidableEq e] [DecidableEq a] :
    DecidableEq (Except e a) := fun x y =>
  match x, y with
  | .error u, .error v =>
    if h : u = v then isTrue (by rw [h]) else isFalse (fun hh => h (by cases hh; rfl))
  | .ok u, .ok v =>
    if h : u = v then isTrue (by rw [h]) else isFalse (fun hh => h (by cases hh; rfl))
  | .error _, .ok _ => isFalse (fun hh => nomatch hh)
  | .ok _, .error _ => isFalse (fun hh => nomatch hh)

/-- Pitch-on label written for a note by `MelodyConverter.toTensor`. -/

def melLabel (minPitch : Nat) (n : Note) : Nat :=
  n.pitch - minPitch + MelodyConverter.FIRST_PITCH

/-- The two buffer writes of one loop iteration of
`MelodyConverter.toTensor`, without the checks. -/

def melWrite (minPitch : Nat) (buf : List Nat) (n : Note) : List Nat :=
  (buf.set n.quantizedStartStep (melLabel minPitch n)).set n.quantizedEndStep
    MelodyConverter.NOTE_OFF

/-- Whether the encode scan of `MelodyConverter.toTensor`, started with
`lastEnd = le`, hits the monophony check. -/

def melViol (le : Int) : List Note → Bool
  | [] => false
  | n :: rest =>
    decide ((n.quantizedStartStep : Int) < le) ||
      melViol (n.quantizedEndStep : Int) rest

/-- The claim's overlap condition on a start-ordered note list: some
note starts strictly before the preceding note ends. -/

def overlapsInOrder : List Note → Bool
  | n :: m :: rest =>
    decide (m.quantizedStartStep < n.quantizedEndStep) ||
      overlapsInOrder (m :: rest)
  | _ => false

/-- First error raised by the encode scan of `MelodyConverter.toTensor`
when started with `lastEnd = le`: per note, the monophony check fires
before the pitch-range check, and a clean note advances `lastEnd` to its
end step.  `none` means the scan completes without throwing. -/

def melFirstError (c : MelodyConverter) : Int → List Note → Option ConversionError
  | _, [] => none
  | le, n :: rest =>
    if (n.quantizedStartStep : Int) < le then some .notMonophonic
    else if n.pitch < c.minPitch ∨ c.maxPitch < n.pitch then
      some (.pitchOutOfRange n.pitch)
    else melFirstError c (n.quantizedEndStep : Int) rest

/-- Well-formed monophonic chain of notes, all lying in `[t, S]`. -/

def ChainOK (S : Nat) : Nat → List Note → Prop
  | _, [] => True
  | t, n :: rest =>
    t ≤ n.quantizedStartStep ∧
      n.quantizedStartStep < n.quantizedEndStep ∧
      n.quantizedEndStep ≤ S ∧ ChainOK S n.quantizedEndStep rest

/-- A run of `k` labels whose first entry is `x` and the rest 0. -/

def padX (x : Nat) : Nat → List Nat
  | 0 => []
  | k + 1 => x :: List.replicate k 0

/-- Explicit form of the label buffer produced by encoding the chain `ms`
from position `t`, where position `t` currently holds `x` (the note-off
of the preceding note, or 0 at the very start). -/

def chunksX (S minPitch : Nat) : Nat → Nat → List Note → List Nat
  | x, t, [] => padX x (S - t)
  | x, t, n :: rest =>
    padX x (n.quantizedStartStep - t) ++ melLabel minPitch n ::
      (List.replicate (n.quantizedEndStep - (n.quantizedStartStep + 1)) 0 ++
        chunksX S minPitch 1 n.quantizedEndStep rest)

def c1Conv : MelodyConverter := { numSteps := 3, minPitch := 60, maxPitch := 61 }

def c1Seq : NoteSequence :=
  { notes := [{ pitch := 60, quantizedStartStep := 0, quantizedEndStep := 2 }]
    totalQuantizedSteps := 3 }

def c4Conv : MelodyConverter := { numSteps := 4, minPitch := 21, maxPitch := 108 }

def c4Seq : NoteSequence :=
  { notes := [{ pitch := 60, quantizedStartStep := 0, quantizedEndStep := 2 },
              { pitch := 62, quantizedStartStep := 2, quantizedEndStep := 4 }]
    totalQuantizedSteps := 4 }

def c8Conv : MelodyConverter := { numSteps := 12, minPitch := 21, maxPitch := 108 }

def c8A : Note :=
  { pitch := 60, quantizedStartStep := 0, quantizedEndStep := 5 }

def c8B : Note :=
  { pitch := 60, quantizedStartStep := 3, quantizedEndStep := 8 }

def c8C : Note :=
  { pitch := 20, quantizedStartStep := 10, quantizedEndStep := 12 }

def c8Seq : NoteSequence :=
  { notes := [c8A, c8B, c8C]
    totalQuantizedSteps := 12 }

def c8Note : Note :=
  { pitch := 20, quantizedStartStep := 0, quantizedEndStep := 2 }

def c8D : Note :=
  { pitch := 60, quantizedStartStep := 5, quantizedEndStep := 9 }

def c8E : Note :=
  { pitch := 60, quantizedStartStep := 7, quantizedEndStep := 10 }

def c8Seq2 : NoteSequence :=
  { notes := [c8Note, c8D, c8E]
    totalQuantizedSteps := 12 }

/-- Lower bound on start steps of notes still to be emitted: the open
note's start, or the current step. -/

def currLB (s : Nat) : Option (Nat × Nat) → Nat
  | none => s
  | some (_, st) => st

def c9Conv : MelodyConverter := { numSteps := 2, minPitch := 60, maxPitch := 61 }

def c9Buf : List (List Int) :=
  [[5, 0, 7, 7], [1, 9, 9, 2], [0, 0, 0, 0]]

/-- The label-accumulation step of `DrumsOneHotConverter.toTensor`. -/

def jsLabelStep (pcs : List (List Nat)) (lab : List (Option Nat)) (n : Note) :
    List (Option Nat) :=
  jsArraySet lab n.quantizedStartStep
    (jsAdd (jsArrayGet lab n.quantizedStartStep)
      ((pitchToClass pcs n.pitch).map (fun cl => 2 ^ cl)))

def c3Drums : DrumsConverter :=
  { numSteps := 2, pitchClasses := [[36], [38]] }

def c3Seq : NoteSequence :=
  { notes := [{ pitch := 40, quantizedStartStep := 0, quantizedEndStep := 1,
                isDrum := true }]
    totalQuantizedSteps := 2 }

def c3Seq2 : NoteSequence :=
  { notes := [{ pitch := 36, quantizedStartStep := 0, quantizedEndStep := 1,
                isDrum := true },
              { pitch := 40, quantizedStartStep := 0, quantizedEndStep := 1,
                isDrum := true }]
    totalQuantizedSteps := 2 }

/-- The class index of a note's pitch (under the assumption that the
pitch is mapped, `getD 0` is never exercised). -/

def classOf (pcs : List (List Nat)) (n : Note) : Nat :=
  (pitchToClass pcs n.pitch).getD 0

/-- The pure-`Nat` shadow of the label accumulation, valid when every
pitch is mapped and every start step is in range. -/

def natLabelStep (pcs : List (List Nat)) (acc : List Nat) (n : Note) :
    List Nat :=
  acc.set n.quantizedStartStep
    (acc.getD n.quantizedStartStep 0 + 2 ^ classOf pcs n)

def c5Drums : DrumsConverter :=
  { numSteps := 2, pitchClasses := [[36], [38]] }

def c5Seq : NoteSequence :=
  { notes := [{ pitch := 36, quantizedStartStep := 0, quantizedEndStep := 1,
                isDrum := true },
              { pitch := 38, quantizedStartStep := 0, quantizedEndStep := 1,
                isDrum := true },
              { pitch := 38, quantizedStartStep := 1, quantizedEndStep := 2,
                isDrum := true }]
    totalQuantizedSteps := 2 }

def exTrioArgs : TrioConverterArgs :=
  { numSteps := 4
    melArgs := { numSteps := 7, minPitch := 60, maxPitch := 61 }
    bassArgs := { minPitch := 30, maxPitch := 40 }
    drumsArgs := { pitchClasses := some [[36], [38]] } }

def c2Converter : MelodyConverter :=
  { numSteps := 4, minPitch := 50, maxPitch := 70 }

def c2Seq : NoteSequence :=
  { notes := [{ pitch := 61, quantizedStartStep := 2, quantizedEndStep := 3 },
              { pitch := 60, quantizedStartStep := 0, quantizedEndStep := 1 }]
    totalQuantizedSteps := 4 }

def c6Trio : TrioConverter :=
  (TrioConverter.construct
    { numSteps := 2
      melArgs := { minPitch := 60, maxPitch := 60 }
      bassArgs := { minPitch := 30, maxPitch := 30 }
      drumsArgs := { pitchClasses := some [[36]] } }).1

def c6Buf : List (List Int) :=
  [[0, 1, 0, 0, 1, 0, 0, 1], [0, 0, 1, 1, 0, 0, 1, 0]]

def c7Note : Note :=
  { pitch := 60, quantizedStartStep := 0, quantizedEndStep := 1, program := 41 }

/-! ## Proofs -/

theorem melInsert_perm (n : Note) (l : List Note) :
    List.Perm (melInsert n l) (n :: l) := by
  induction l with
  | nil => exact List.Perm.refl _
  | cons m ms ih =>
    simp only [melInsert]
    split
    · exact (ih.cons m).trans (List.Perm.swap n m ms)
    · exact List.Perm.refl _

theorem melSortAux_perm (notes : List Note) :
    ∀ acc, List.Perm (notes.foldl (fun acc n => melInsert n acc) acc)
      (acc ++ notes) := by
  induction notes with
  | nil => intro acc; simp
  | cons n ns ih =>
    intro acc
    simp only [List.foldl_cons]
    refine (ih (melInsert n acc)).trans ?_
    refine (List.Perm.append_right ns (melInsert_perm n acc)).trans ?_
    exact List.perm_middle.symm

theorem melSort_perm (notes : List Note) : List.Perm (melSort notes) notes := by
  simpa using melSortAux_perm notes []

/-- Every note emitted by the drum decode loop is a drum hit of one
step. -/
theorem drumsDecodeAux_shape (pcs : List (List Nat)) :
    ∀ ls s n, n ∈ drumsDecodeAux pcs ls s →
      n.isDrum = true ∧ n.quantizedEndStep = n.quantizedStartStep + 1
  | [], _, _, h => by simp [drumsDecodeAux] at h
  | l :: ls, s, n, h => by
    simp only [drumsDecodeAux, List.mem_append] at h
    rcases h with h | h
    · rcases List.mem_filterMap.mp h with ⟨p, -, hp⟩
      split at hp
      · cases Option.some.inj hp; exact ⟨rfl, rfl⟩
      · cases hp
    · exact drumsDecodeAux_shape pcs ls (s + 1) n h

theorem padX_length (x k : Nat) : (padX x k).length = k := by
  cases k <;> simp [padX]

theorem padX_zero (k : Nat) : padX 0 k = List.replicate k 0 := by
  cases k with
  | zero => rfl
  | succ k => simp [padX, List.replicate_succ]

theorem replicate_set (v : Nat) :
    ∀ k j : Nat, j < k →
      (List.replicate k (0 : Nat)).set j v =
        List.replicate j 0 ++ v :: List.replicate (k - (j + 1)) 0 := by
  intro k
  induction k with
  | zero => intro j hj; omega
  | succ k ih =>
    intro j hj
    cases j with
    | zero => simp [List.replicate_succ]
    | succ j =>
      rw [List.replicate_succ, List.set_cons_succ, ih j (by omega),
        List.replicate_succ]
      simp [Nat.succ_sub_succ]

theorem padX_set (x v : Nat) :
    ∀ m j : Nat, j < m →
      (padX x m).set j v = padX x j ++ v :: List.replicate (m - (j + 1)) 0 := by
  intro m j hj
  cases m with
  | zero => omega
  | succ m =>
    cases j with
    | zero => simp [padX]
    | succ j =>
      rw [padX, List.set_cons_succ, replicate_set v m j (by omega), padX]
      simp [Nat.succ_sub_succ]

theorem chunksX_length (S minPitch : Nat) :
    ∀ (ms : List Note) (x t : Nat), ChainOK S t ms → t ≤ S →
      (chunksX S minPitch x t ms).length = S - t
  | [], x, t, _, _ => by simp [chunksX, padX_length]
  | n :: rest, x, t, h, htS => by
    obtain ⟨hts, hse, heS, hrest⟩ := h
    have ihlen := chunksX_length S minPitch rest 1 n.quantizedEndStep hrest heS
    simp [chunksX, padX_length, ihlen]
    omega

/-- Effect of one note's pair of buffer writes on a buffer whose first
`t` cells are already fixed (`P`) and whose remainder is still blank
except for cell `t` itself. -/
theorem write_pair (P : List Nat) (x lab s e S t : Nat) (hP : P.length = t)
    (hts : t ≤ s) (hse : s < e) (heS : e ≤ S) :
    ((P ++ padX x (S - t)).set s lab).set e 1 =
      (P ++ padX x (s - t) ++ lab :: List.replicate (e - (s + 1)) 0) ++
        padX 1 (S - e) := by
  rw [List.set_append_right _ _ (by omega : P.length ≤ s), hP,
    padX_set x lab (S - t) (s - t) (by omega)]
  have e1 : S - t - (s - t + 1) = S - (s + 1) := by omega
  rw [e1, ← List.append_assoc]
  have hA : (P ++ padX x (s - t)).length = s := by
    simp [padX_length, hP]
    omega
  rw [List.set_append_right _ _ (by rw [hA]; omega), hA]
  have e2 : e - s = (e - s - 1) + 1 := by omega
  rw [e2, List.set_cons_succ]
  rcases Nat.lt_or_ge e S with hlt | hge
  · rw [replicate_set 1 (S - (s + 1)) (e - s - 1) (by omega)]
    rw [show e - s - 1 = e - (s + 1) from by omega]
    rw [show S - (s + 1) - (e - (s + 1) + 1) = S - (e + 1) from by omega]
    rw [show padX 1 (S - e) = 1 :: List.replicate (S - (e + 1)) 0 from by
      rw [show S - e = (S - (e + 1)) + 1 from by omega, padX]]
    simp [List.append_assoc]
  · rw [List.set_eq_of_length_le (by simp [List.length_replicate]; omega)]
    rw [show e - (s + 1) = S - (s + 1) from by omega,
      show S - e = 0 from by omega]
    simp [padX, List.append_assoc]

/-- The label buffer written by encoding a well-formed chain is exactly
its chunk decomposition. -/
theorem melWrites_eq_chunksX (S minPitch : Nat) :
    ∀ (ms : List Note) (x t : Nat) (P : List Nat),
      P.length = t → t ≤ S → ChainOK S t ms →
      ms.foldl (melWrite minPitch) (P ++ padX x (S - t)) =
        P ++ chunksX S minPitch x t ms
  | [], x, t, P, _, _, _ => by simp [chunksX]
  | n :: rest, x, t, P, hP, htS, h => by
    obtain ⟨hts, hse, heS, hrest⟩ := h
    simp only [List.foldl_cons]
    have h1 : melWrite minPitch (P ++ padX x (S - t)) n =
        (P ++ padX x (n.quantizedStartStep - t) ++
          melLabel minPitch n ::
            List.replicate (n.quantizedEndStep - (n.quantizedStartStep + 1)) 0) ++
          padX 1 (S - n.quantizedEndStep) := by
      have hw := write_pair P x (melLabel minPitch n) n.quantizedStartStep
        n.quantizedEndStep S t hP hts hse heS
      simpa [melWrite, MelodyConverter.NOTE_OFF] using hw
    rw [h1]
    have hP' : (P ++ padX x (n.quantizedStartStep - t) ++
        melLabel minPitch n ::
          List.replicate (n.quantizedEndStep - (n.quantizedStartStep + 1)) 0).length =
        n.quantizedEndStep := by
      simp [padX_length, hP]
      omega
    have ih := melWrites_eq_chunksX S minPitch rest 1 n.quantizedEndStep
      (P ++ padX x (n.quantizedStartStep - t) ++
        melLabel minPitch n ::
          List.replicate (n.quantizedEndStep - (n.quantizedStartStep + 1)) 0)
      hP' heS hrest
    rw [ih]
    simp [chunksX, List.append_assoc]

theorem melDecodeAux_replicate (minPitch : Nat) (k : Nat) :
    ∀ (ls : List Nat) (s : Nat) (curr : Option (Nat × Nat)),
      melDecodeAux minPitch (List.replicate k 0 ++ ls) s curr =
        melDecodeAux minPitch ls (s + k) curr := by
  induction k with
  | zero => intro ls s curr; simp
  | succ k ih =>
    intro ls s curr
    rw [List.replicate_succ, List.cons_append]
    rw [show melDecodeAux minPitch (0 :: (List.replicate k 0 ++ ls)) s curr =
        melDecodeAux minPitch (List.replicate k 0 ++ ls) (s + 1) curr from by
      simp [melDecodeAux]]
    rw [ih]
    rw [show s + 1 + k = s + (k + 1) from by omega]

/-- Decoding the chunks of a chain while a note `(p, st)` is open
closes that note at the current position and then reproduces the chain. -/
theorem melDecodeAux_chunks_open (S minPitch : Nat) :
    ∀ (ms : List Note) (t p st : Nat), ChainOK S t ms → t ≤ S →
      (∀ n ∈ ms, minPitch ≤ n.pitch) →
      melDecodeAux minPitch (chunksX S minPitch 1 t ms) t (some (p, st)) =
        { pitch := p, quantizedStartStep := st, quantizedEndStep := t } ::
          ms.map plainNote
  | [], t, p, st, _, htS, _ => by
    rw [chunksX]
    rcases Nat.eq_zero_or_pos (S - t) with hz | hpos
    · rw [hz, padX]
      simp [melDecodeAux]
    · rw [show S - t = (S - t - 1) + 1 from by omega, padX]
      rw [show melDecodeAux minPitch (1 :: List.replicate (S - t - 1) 0) t
            (some (p, st)) =
          { pitch := p, quantizedStartStep := st, quantizedEndStep := t } ::
            melDecodeAux minPitch (List.replicate (S - t - 1) 0) (t + 1) none
          from by simp [melDecodeAux]]
      rw [show List.replicate (S - t - 1) (0 : Nat) =
          List.replicate (S - t - 1) 0 ++ [] from by simp]
      rw [melDecodeAux_replicate]
      simp [melDecodeAux]
  | n :: rest, t, p, st, h, htS, hmem => by
    obtain ⟨hts, hse, heS, hrest⟩ := h
    have hpn : minPitch ≤ n.pitch := hmem n (List.mem_cons_self n rest)
    have hlab2 : ¬ melLabel minPitch n = 0 := by
      simp only [melLabel, MelodyConverter.FIRST_PITCH]
      omega
    have hlab1 : ¬ melLabel minPitch n = 1 := by
      simp only [melLabel, MelodyConverter.FIRST_PITCH]
      omega
    have hpitch : melLabel minPitch n - MelodyConverter.FIRST_PITCH + minPitch =
        n.pitch := by
      simp only [melLabel, MelodyConverter.FIRST_PITCH]
      omega
    rw [chunksX]
    rcases Nat.eq_zero_or_pos (n.quantizedStartStep - t) with hz | hpos
    · -- the open note is closed by the next pitch-on label directly
      have hteq : n.quantizedStartStep = t := by omega
      rw [hz, padX, List.nil_append]
      rw [show melDecodeAux minPitch (melLabel minPitch n ::
            (List.replicate (n.quantizedEndStep - (n.quantizedStartStep + 1)) 0 ++
              chunksX S minPitch 1 n.quantizedEndStep rest)) t (some (p, st)) =
          { pitch := p, quantizedStartStep := st, quantizedEndStep := t } ::
            melDecodeAux minPitch
              (List.replicate (n.quantizedEndStep - (n.quantizedStartStep + 1)) 0 ++
                chunksX S minPitch 1 n.quantizedEndStep rest) (t + 1)
              (some (melLabel minPitch n - MelodyConverter.FIRST_PITCH + minPitch, t))
          from by simp [melDecodeAux, hlab2, hlab1]]
      rw [melDecodeAux_replicate, hpitch]
      rw [show t + 1 + (n.quantizedEndStep - (n.quantizedStartStep + 1)) =
          n.quantizedEndStep from by omega]
      rw [melDecodeAux_chunks_open S minPitch rest n.quantizedEndStep n.pitch t
        hrest heS (fun m hm => hmem m (List.mem_cons_of_mem n hm))]
      simp [plainNote, hteq]
    · -- a note-off label closes the open note first
      rw [show n.quantizedStartStep - t = (n.quantizedStartStep - t - 1) + 1
        from by omega, padX]
      rw [show melDecodeAux minPitch ((1 :: List.replicate
            (n.quantizedStartStep - t - 1) 0 ++ (melLabel minPitch n ::
              (List.replicate (n.quantizedEndStep - (n.quantizedStartStep + 1)) 0 ++
                chunksX S minPitch 1 n.quantizedEndStep rest)))) t (some (p, st)) =
          { pitch := p, quantizedStartStep := st, quantizedEndStep := t } ::
            melDecodeAux minPitch (List.replicate (n.quantizedStartStep - t - 1) 0 ++
              (melLabel minPitch n ::
                (List.replicate (n.quantizedEndStep - (n.quantizedStartStep + 1)) 0 ++
                  chunksX S minPitch 1 n.quantizedEndStep rest))) (t + 1) none
          from by simp [melDecodeAux]]
      rw [melDecodeAux_replicate]
      rw [show t + 1 + (n.quantizedStartStep - t - 1) = n.quantizedStartStep
        from by omega]
      rw [show melDecodeAux minPitch (melLabel minPitch n ::
            (List.replicate (n.quantizedEndStep - (n.quantizedStartStep + 1)) 0 ++
              chunksX S minPitch 1 n.quantizedEndStep rest)) n.quantizedStartStep
            none =
          melDecodeAux minPitch
            (List.replicate (n.quantizedEndStep - (n.quantizedStartStep + 1)) 0 ++
              chunksX S minPitch 1 n.quantizedEndStep rest)
            (n.quantizedStartStep + 1)
            (some (melLabel minPitch n - MelodyConverter.FIRST_PITCH + minPitch,
              n.quantizedStartStep))
          from by simp [melDecodeAux, hlab2, hlab1]]
      rw [melDecodeAux_replicate, hpitch]
      rw [show n.quantizedStartStep + 1 +
          (n.quantizedEndStep - (n.quantizedStartStep + 1)) = n.quantizedEndStep
        from by omega]
      rw [melDecodeAux_chunks_open S minPitch rest n.quantizedEndStep n.pitch
        n.quantizedStartStep hrest heS
        (fun m hm => hmem m (List.mem_cons_of_mem n hm))]
      simp [plainNote]

/-- Decoding the chunks of a chain with no open note reproduces the
chain. -/
theorem melDecodeAux_chunks_closed (S minPitch : Nat) :
    ∀ (ms : List Note) (t : Nat), ChainOK S t ms → t ≤ S →
      (∀ n ∈ ms, minPitch ≤ n.pitch) →
      melDecodeAux minPitch (chunksX S minPitch 0 t ms) t none =
        ms.map plainNote
  | [], t, _, htS, _ => by
    rw [chunksX, padX_zero]
    rw [show List.replicate (S - t) (0 : Nat) =
        List.replicate (S - t) 0 ++ [] from by simp]
    rw [melDecodeAux_replicate]
    simp [melDecodeAux]
  | n :: rest, t, h, htS, hmem => by
    obtain ⟨hts, hse, heS, hrest⟩ := h
    have hpn : minPitch ≤ n.pitch := hmem n (List.mem_cons_self n rest)
    have hlab2 : ¬ melLabel minPitch n = 0 := by
      simp only [melLabel, MelodyConverter.FIRST_PITCH]
      omega
    have hlab1 : ¬ melLabel minPitch n = 1 := by
      simp only [melLabel, MelodyConverter.FIRST_PITCH]
      omega
    have hpitch : melLabel minPitch n - MelodyConverter.FIRST_PITCH + minPitch =
        n.pitch := by
      simp only [melLabel, MelodyConverter.FIRST_PITCH]
      omega
    rw [chunksX, padX_zero, melDecodeAux_replicate]
    rw [show t + (n.quantizedStartStep - t) = n.quantizedStartStep from by omega]
    rw [show melDecodeAux minPitch (melLabel minPitch n ::
          (List.replicate (n.quantizedEndStep - (n.quantizedStartStep + 1)) 0 ++
            chunksX S minPitch 1 n.quantizedEndStep rest)) n.quantizedStartStep
          none =
        melDecodeAux minPitch
          (List.replicate (n.quantizedEndStep - (n.quantizedStartStep + 1)) 0 ++
            chunksX S minPitch 1 n.quantizedEndStep rest)
          (n.quantizedStartStep + 1)
          (some (melLabel minPitch n - MelodyConverter.FIRST_PITCH + minPitch,
            n.quantizedStartStep))
        from by simp [melDecodeAux, hlab2, hlab1]]
    rw [melDecodeAux_replicate, hpitch]
    rw [show n.quantizedStartStep + 1 +
        (n.quantizedEndStep - (n.quantizedStartStep + 1)) = n.quantizedEndStep
      from by omega]
    rw [melDecodeAux_chunks_open S minPitch rest n.quantizedEndStep n.pitch
      n.quantizedStartStep hrest heS
      (fun m hm => hmem m (List.mem_cons_of_mem n hm))]
    simp [plainNote]

theorem melViol_cons_nat (n : Note) :
    ∀ ms, melViol (n.quantizedEndStep : Int) ms = overlapsInOrder (n :: ms)
  | [] => by simp [melViol, overlapsInOrder]
  | m :: rest => by
    rw [melViol, overlapsInOrder, melViol_cons_nat m rest]
    congr 1
    simp

theorem melViol_neg_one : ∀ ms, melViol (-1) ms = overlapsInOrder ms
  | [] => rfl
  | n :: rest => by
    rw [melViol, melViol_cons_nat n rest]
    have h : ¬ ((n.quantizedStartStep : Int) < -1) := by
      have : (0 : Int) ≤ (n.quantizedStartStep : Int) := Int.natCast_nonneg _
      omega
    simp [h]

theorem overlaps_false_of_chain :
    ∀ ms, List.Chain' (fun a b => a.quantizedEndStep ≤ b.quantizedStartStep) ms →
      overlapsInOrder ms = false
  | [], _ => rfl
  | [_], _ => rfl
  | n :: m :: rest, hc => by
    obtain ⟨h1, h2⟩ := List.chain'_cons.mp hc
    rw [overlapsInOrder, overlaps_false_of_chain (m :: rest) h2]
    simp
    omega

theorem chain_of_overlaps_false :
    ∀ ms, overlapsInOrder ms = false →
      List.Chain' (fun a b => a.quantizedEndStep ≤ b.quantizedStartStep) ms
  | [], _ => List.chain'_nil
  | [n], _ => List.chain'_singleton n
  | n :: m :: rest, h => by
    rw [overlapsInOrder] at h
    obtain ⟨h1, h2⟩ := Bool.or_eq_false_iff.mp h
    exact List.chain'_cons.mpr
      ⟨by have := of_decide_eq_false h1; omega,
       chain_of_overlaps_false (m :: rest) h2⟩

theorem chainOK_of_chain (S : Nat) :
    ∀ (ms : List Note) (t : Nat),
      (∀ n ∈ ms, n.quantizedStartStep < n.quantizedEndStep ∧
        n.quantizedEndStep ≤ S) →
      List.Chain' (fun a b => a.quantizedEndStep ≤ b.quantizedStartStep) ms →
      (∀ n ∈ ms.head?, t ≤ n.quantizedStartStep) →
      ChainOK S t ms
  | [], _, _, _, _ => trivial
  | n :: rest, t, hb, hc, hh => by
    have hbn := hb n (List.mem_cons_self n rest)
    obtain ⟨hhd, htl⟩ := List.chain'_cons'.mp hc
    refine ⟨hh n rfl, hbn.1, hbn.2, ?_⟩
    exact chainOK_of_chain S rest n.quantizedEndStep
      (fun m hm => hb m (List.mem_cons_of_mem n hm)) htl hhd

theorem except_error_bind {a b : Type} {e : ConversionError}
    {f : a → Except ConversionError b} :
    (Except.error e >>= f) = Except.error e := rfl

theorem except_pure_ne_error {v : List Nat × Int} {e : ConversionError} :
    ¬ (pure v : Except ConversionError (List Nat × Int)) = Except.error e :=
  fun h => nomatch h

/-- A scan with no monophony violation and in-range pitches succeeds
and produces exactly the fold of the per-note buffer writes. -/
theorem melFold_ok (c : MelodyConverter) :
    ∀ (ms : List Note) (buf : List Nat) (le : Int),
      (∀ n ∈ ms, c.minPitch ≤ n.pitch ∧ n.pitch ≤ c.maxPitch) →
      melViol le ms = false →
      ms.foldlM c.encodeNote (buf, le) =
        .ok (ms.foldl (melWrite c.minPitch) buf,
          ms.foldl (fun _ n => (n.quantizedEndStep : Int)) le)
  | [], buf, le, _, _ => rfl
  | n :: rest, buf, le, hrange, hviol => by
    rw [melViol] at hviol
    obtain ⟨hv1, hv2⟩ := Bool.or_eq_false_iff.mp hviol
    have h1 : ¬ ((n.quantizedStartStep : Int) < le) := of_decide_eq_false hv1
    obtain ⟨hp1, hp2⟩ := hrange n (List.mem_cons_self n rest)
    have h2 : ¬ (n.pitch < c.minPitch ∨ c.maxPitch < n.pitch) := by omega
    rw [List.foldlM_cons]
    rw [show c.encodeNote (buf, le) n =
        .ok (melWrite c.minPitch buf n, (n.quantizedEndStep : Int)) from by
      simp [MelodyConverter.encodeNote, h1, h2, melWrite, melLabel]]
    rw [show ((Except.ok (melWrite c.minPitch buf n, (n.quantizedEndStep : Int)) :
          Except ConversionError (List Nat × Int)) >>=
        fun b => rest.foldlM c.encodeNote b) =
        rest.foldlM c.encodeNote (melWrite c.minPitch buf n,
          (n.quantizedEndStep : Int)) from rfl]
    rw [melFold_ok c rest (melWrite c.minPitch buf n) (n.quantizedEndStep : Int)
      (fun m hm => hrange m (List.mem_cons_of_mem n hm)) hv2]
    rfl

/-- Under in-range pitches, the scan raises `NotMonophonic` exactly
when some note starts before its predecessor (in scan order) ends. -/
theorem melFold_notMono_iff (c : MelodyConverter) :
    ∀ (ms : List Note) (buf : List Nat) (le : Int),
      (∀ n ∈ ms, c.minPitch ≤ n.pitch ∧ n.pitch ≤ c.maxPitch) →
      (ms.foldlM c.encodeNote (buf, le) = .error .notMonophonic ↔
        melViol le ms = true)
  | [], buf, le, _ => by
    rw [List.foldlM_nil, melViol]
    simp [except_pure_ne_error]
  | n :: rest, buf, le, hrange => by
    obtain ⟨hp1, hp2⟩ := hrange n (List.mem_cons_self n rest)
    have h2 : ¬ (n.pitch < c.minPitch ∨ c.maxPitch < n.pitch) := by omega
    rw [List.foldlM_cons, melViol]
    by_cases h1 : (n.quantizedStartStep : Int) < le
    · rw [show c.encodeNote (buf, le) n =
          (.error .notMonophonic : Except ConversionError (List Nat × Int))
        from by simp [MelodyConverter.encodeNote, h1]]
      simp [except_error_bind, h1]
    · rw [show c.encodeNote (buf, le) n =
          .ok (melWrite c.minPitch buf n, (n.quantizedEndStep : Int)) from by
        simp [MelodyConverter.encodeNote, h1, h2, melWrite, melLabel]]
      rw [show ((Except.ok (melWrite c.minPitch buf n,
            (n.quantizedEndStep : Int)) :
            Except ConversionError (List Nat × Int)) >>=
          fun b => rest.foldlM c.encodeNote b) =
          rest.foldlM c.encodeNote (melWrite c.minPitch buf n,
            (n.quantizedEndStep : Int)) from rfl]
      rw [melFold_notMono_iff c rest (melWrite c.minPitch buf n)
        (n.quantizedEndStep : Int)
        (fun m hm => hrange m (List.mem_cons_of_mem n hm))]
      simp [h1]

/-- With no monophony violation but some out-of-range pitch, the scan
raises `PitchOutOfRange` for an out-of-range pitch. -/
theorem melFold_pitch_err (c : MelodyConverter) :
    ∀ (ms : List Note) (buf : List Nat) (le : Int),
      melViol le ms = false →
      (∃ n ∈ ms, n.pitch < c.minPitch ∨ c.maxPitch < n.pitch) →
      ∃ p, ms.foldlM c.encodeNote (buf, le) = .error (.pitchOutOfRange p) ∧
        (p < c.minPitch ∨ c.maxPitch < p)
  | [], buf, le, _, hex => by simp at hex
  | n :: rest, buf, le, hviol, hex => by
    rw [melViol] at hviol
    obtain ⟨hv1, hv2⟩ := Bool.or_eq_false_iff.mp hviol
    have h1 : ¬ ((n.quantizedStartStep : Int) < le) := of_decide_eq_false hv1
    rw [List.foldlM_cons]
    by_cases hbad : n.pitch < c.minPitch ∨ c.maxPitch < n.pitch
    · refine ⟨n.pitch, ?_, hbad⟩
      rw [show c.encodeNote (buf, le) n =
          (.error (.pitchOutOfRange n.pitch) :
            Except ConversionError (List Nat × Int)) from by
        simp [MelodyConverter.encodeNote, h1, hbad]]
      rfl
    · obtain ⟨m, hm, hmbad⟩ := hex
      rcases List.mem_cons.mp hm with rfl | hm'
      · exact absurd hmbad hbad
      rw [show c.encodeNote (buf, le) n =
          .ok (melWrite c.minPitch buf n, (n.quantizedEndStep : Int)) from by
        simp [MelodyConverter.encodeNote, h1, hbad, melWrite, melLabel]]
      rw [show ((Except.ok (melWrite c.minPitch buf n,
            (n.quantizedEndStep : Int)) :
            Except ConversionError (List Nat × Int)) >>=
          fun b => rest.foldlM c.encodeNote b) =
          rest.foldlM c.encodeNote (melWrite c.minPitch buf n,
            (n.quantizedEndStep : Int)) from rfl]
      exact melFold_pitch_err c rest (melWrite c.minPitch buf n)
        (n.quantizedEndStep : Int) hv2 ⟨m, hm', hmbad⟩

theorem oneHot_eq (k d : Nat) (h : k < d) :
    oneHot k d = List.replicate k 0 ++ 1 :: List.replicate (d - (k + 1)) 0 := by
  apply List.ext_getElem
  · simp [oneHot]
    omega
  · intro j h1 h2
    simp only [oneHot, List.getElem_map, List.getElem_range]
    rcases Nat.lt_trichotomy j k with hlt | heq | hgt
    · rw [List.getElem_append_left (by simp; omega)]
      simp [List.getElem_replicate]
      omega
    · subst heq
      rw [List.getElem_append_right (by simp)]
      simp
    · rw [List.getElem_append_right (by simp; omega)]
      obtain ⟨m, rfl⟩ : ∃ m, j = k + 1 + m := ⟨j - k - 1, by omega⟩
      simp only [List.length_replicate]
      simp only [show k + 1 + m - k = m + 1 from by omega]
      simp [List.getElem_replicate]
      omega

theorem jsArgMaxAux_skip_zeros (k : Nat) :
    ∀ (rest : List Int) (i bi : Nat) (bv : Int), 0 ≤ bv →
      jsArgMaxAux (List.replicate k 0 ++ rest) i bi bv =
        jsArgMaxAux rest (i + k) bi bv := by
  induction k with
  | zero => intro rest i bi bv _; simp
  | succ k ih =>
    intro rest i bi bv hbv
    rw [List.replicate_succ, List.cons_append, jsArgMaxAux,
      if_neg (by omega : ¬ bv < 0), ih rest (i + 1) bi bv hbv]
    rw [show i + 1 + k = i + (k + 1) from by omega]

theorem jsArgMaxAux_spike (m : Nat) (i bi : Nat) (bv : Int) (h : bv < 1) :
    jsArgMaxAux (1 :: List.replicate m 0) i bi bv = i := by
  rw [jsArgMaxAux, if_pos h]
  rw [show List.replicate m (0 : Int) = List.replicate m 0 ++ [] from by simp]
  rw [jsArgMaxAux_skip_zeros m [] (i + 1) i 1 (by omega)]
  rfl

theorem jsArgMax_oneHot (k d : Nat) (h : k < d) : jsArgMax (oneHot k d) = k := by
  rw [oneHot_eq k d h]
  cases k with
  | zero =>
    rw [List.replicate_zero, List.nil_append, jsArgMax]
    rw [show List.replicate (d - 1) (0 : Int) = List.replicate (d - 1) 0 ++ []
      from by simp]
    rw [jsArgMaxAux_skip_zeros (d - 1) [] 1 0 1 (by omega)]
    rfl
  | succ k =>
    rw [List.replicate_succ, List.cons_append, jsArgMax,
      jsArgMaxAux_skip_zeros k _ 1 0 0 (by omega),
      jsArgMaxAux_spike _ _ _ _ (by omega)]
    omega

theorem jsArgMaxAux_lt :
    ∀ (vs : List Int) (i bi : Nat) (bv : Int), bi < i →
      jsArgMaxAux vs i bi bv < i + vs.length
  | [], i, bi, bv, h => by simpa [jsArgMaxAux] using h
  | v :: vs, i, bi, bv, h => by
    rw [jsArgMaxAux]
    split
    · have := jsArgMaxAux_lt vs (i + 1) i v (by omega)
      simp only [List.length_cons]
      omega
    · have := jsArgMaxAux_lt vs (i + 1) bi bv (by omega)
      simp only [List.length_cons]
      omega

theorem jsArgMax_lt (r : List Int) (h : r ≠ []) : jsArgMax r < r.length := by
  cases r with
  | nil => exact absurd rfl h
  | cons v vs =>
    rw [jsArgMax]
    have := jsArgMaxAux_lt vs 1 0 v (by omega)
    simp only [List.length_cons]
    omega

theorem padX_mem (x k l : Nat) (h : l ∈ padX x k) : l = x ∨ l = 0 := by
  cases k with
  | zero => cases h
  | succ k =>
    rw [padX] at h
    rcases List.mem_cons.mp h with rfl | h2
    · exact Or.inl rfl
    · exact Or.inr (List.eq_of_mem_replicate h2)

theorem chunksX_mem (S minPitch : Nat) :
    ∀ (ms : List Note) (x t : Nat) (l : Nat), x ≤ 1 →
      l ∈ chunksX S minPitch x t ms →
      l ≤ 1 ∨ ∃ n ∈ ms, l = melLabel minPitch n
  | [], x, t, l, hx, hmem => by
    rw [chunksX] at hmem
    rcases padX_mem x _ l hmem with rfl | rfl
    · exact Or.inl hx
    · exact Or.inl (by omega)
  | n :: rest, x, t, l, hx, hmem => by
    rw [chunksX] at hmem
    rcases List.mem_append.mp hmem with h1 | h2
    · rcases padX_mem x _ l h1 with rfl | rfl
      · exact Or.inl hx
      · exact Or.inl (by omega)
    · rcases List.mem_cons.mp h2 with rfl | h3
      · exact Or.inr ⟨n, List.mem_cons_self n rest, rfl⟩
      · rcases List.mem_append.mp h3 with h4 | h5
        · exact Or.inl (by
            have := List.eq_of_mem_replicate h4
            omega)
        · rcases chunksX_mem S minPitch rest 1 n.quantizedEndStep l
            (by omega) h5 with h6 | ⟨m, hm, rfl⟩
          · exact Or.inl h6
          · exact Or.inr ⟨m, List.mem_cons_of_mem n hm, rfl⟩

/-- C1: for a monophonic sequence with pitches in `[minPitch, maxPitch]`
and well-formed note steps within `numSteps`, decoding the encoding
returns exactly the same notes (same pitch, start and end; none added,
removed or mispitched): the decoded note list is the input sorted by
start step, hence a permutation of the input's notes. -/
theorem C1_melody_round_trip (c : MelodyConverter) (ns : NoteSequence)
    (hrange : ∀ n ∈ ns.notes, c.minPitch ≤ n.pitch ∧ n.pitch ≤ c.maxPitch)
    (hsteps : ∀ n ∈ ns.notes,
      n.quantizedStartStep < n.quantizedEndStep ∧
        n.quantizedEndStep ≤ resolvedNumSteps c.numSteps ns)
    (hmono : overlapsInOrder (melSort ns.notes) = false) :
    ∃ buf, MelodyConverter.toTensor c ns = .ok buf ∧
      (MelodyConverter.toNoteSequence c buf).notes.map noteTriple =
        (melSort ns.notes).map noteTriple ∧
      List.Perm ((MelodyConverter.toNoteSequence c buf).notes.map noteTriple)
        (ns.notes.map noteTriple) := by
  have hsub := (melSort_perm ns.notes).subset
  have hrange' : ∀ n ∈ melSort ns.notes,
      c.minPitch ≤ n.pitch ∧ n.pitch ≤ c.maxPitch :=
    fun n hn => hrange n (hsub hn)
  have hsteps' : ∀ n ∈ melSort ns.notes,
      n.quantizedStartStep < n.quantizedEndStep ∧
        n.quantizedEndStep ≤ resolvedNumSteps c.numSteps ns :=
    fun n hn => hsteps n (hsub hn)
  have hchain : ChainOK (resolvedNumSteps c.numSteps ns) 0 (melSort ns.notes) :=
    chainOK_of_chain _ _ 0 hsteps' (chain_of_overlaps_false _ hmono)
      (fun n _ => Nat.zero_le _)
  have hviol : melViol (-1) (melSort ns.notes) = false := by
    rw [melViol_neg_one]
    exact hmono
  have henc := melFold_ok c (melSort ns.notes)
    (List.replicate (resolvedNumSteps c.numSteps ns) 0) (-1) hrange' hviol
  have hbuf : (melSort ns.notes).foldl (melWrite c.minPitch)
      (List.replicate (resolvedNumSteps c.numSteps ns) 0) =
      chunksX (resolvedNumSteps c.numSteps ns) c.minPitch 0 0
        (melSort ns.notes) := by
    have hA := melWrites_eq_chunksX (resolvedNumSteps c.numSteps ns) c.minPitch
      (melSort ns.notes) 0 0 [] rfl (Nat.zero_le _) hchain
    simpa [padX_zero] using hA
  refine ⟨((melSort ns.notes).foldl (melWrite c.minPitch)
      (List.replicate (resolvedNumSteps c.numSteps ns) 0)).map
    (fun l => oneHot l c.depth), ?_, ?_, ?_⟩
  · rw [MelodyConverter.toTensor]
    rw [henc]
    rfl
  · rw [MelodyConverter.toNoteSequence]
    have hlabels : (((melSort ns.notes).foldl (melWrite c.minPitch)
        (List.replicate (resolvedNumSteps c.numSteps ns) 0)).map
          (fun l => oneHot l c.depth)).map jsArgMax =
        chunksX (resolvedNumSteps c.numSteps ns) c.minPitch 0 0
          (melSort ns.notes) := by
      rw [hbuf, List.map_map]
      have hid : ∀ l ∈ chunksX (resolvedNumSteps c.numSteps ns) c.minPitch 0 0
          (melSort ns.notes), jsArgMax (oneHot l c.depth) = l := by
        intro l hl
        have hb := chunksX_mem _ c.minPitch (melSort ns.notes) 0 0 l
          (by omega) hl
        have hlt : l < c.depth := by
          rcases hb with h1 | ⟨n, hn, rfl⟩
          · simp only [MelodyConverter.depth, MelodyConverter.FIRST_PITCH]
            omega
          · obtain ⟨hp1, hp2⟩ := hrange' n hn
            simp only [melLabel, MelodyConverter.depth,
              MelodyConverter.FIRST_PITCH]
            omega
        exact jsArgMax_oneHot l c.depth hlt
      calc List.map (fun l => jsArgMax (oneHot l c.depth))
            (chunksX (resolvedNumSteps c.numSteps ns) c.minPitch 0 0
              (melSort ns.notes)) =
          List.map id (chunksX (resolvedNumSteps c.numSteps ns) c.minPitch 0 0
            (melSort ns.notes)) := List.map_congr_left hid
        _ = _ := List.map_id _
    rw [hlabels]
    rw [melDecodeAux_chunks_closed (resolvedNumSteps c.numSteps ns) c.minPitch
      (melSort ns.notes) 0 hchain (Nat.zero_le _)
      (fun n hn => (hrange' n hn).1)]
    rw [List.map_map]
    rfl
  · rw [MelodyConverter.toNoteSequence]
    have hlabels : (((melSort ns.notes).foldl (melWrite c.minPitch)
        (List.replicate (resolvedNumSteps c.numSteps ns) 0)).map
          (fun l => oneHot l c.depth)).map jsArgMax =
        chunksX (resolvedNumSteps c.numSteps ns) c.minPitch 0 0
          (melSort ns.notes) := by
      rw [hbuf, List.map_map]
      have hid : ∀ l ∈ chunksX (resolvedNumSteps c.numSteps ns) c.minPitch 0 0
          (melSort ns.notes), jsArgMax (oneHot l c.depth) = l := by
        intro l hl
        have hb := chunksX_mem _ c.minPitch (melSort ns.notes) 0 0 l
          (by omega) hl
        have hlt : l < c.depth := by
          rcases hb with h1 | ⟨n, hn, rfl⟩
          · simp only [MelodyConverter.depth, MelodyConverter.FIRST_PITCH]
            omega
          · obtain ⟨hp1, hp2⟩ := hrange' n hn
            simp only [melLabel, MelodyConverter.depth,
              MelodyConverter.FIRST_PITCH]
            omega
        exact jsArgMax_oneHot l c.depth hlt
      calc List.map (fun l => jsArgMax (oneHot l c.depth))
            (chunksX (resolvedNumSteps c.numSteps ns) c.minPitch 0 0
              (melSort ns.notes)) =
          List.map id (chunksX (resolvedNumSteps c.numSteps ns) c.minPitch 0 0
            (melSort ns.notes)) := List.map_congr_left hid
        _ = _ := List.map_id _
    rw [hlabels]
    rw [melDecodeAux_chunks_closed (resolvedNumSteps c.numSteps ns) c.minPitch
      (melSort ns.notes) 0 hchain (Nat.zero_le _)
      (fun n hn => (hrange' n hn).1)]
    rw [List.map_map]
    rw [show (noteTriple ∘ plainNote) = noteTriple from rfl]
    exact (melSort_perm ns.notes).map noteTriple

theorem C1_witness :
    ∃ buf, MelodyConverter.toTensor c1Conv c1Seq = .ok buf ∧
      (MelodyConverter.toNoteSequence c1Conv buf).notes.map noteTriple =
        (melSort c1Seq.notes).map noteTriple ∧
      List.Perm
        ((MelodyConverter.toNoteSequence c1Conv buf).notes.map noteTriple)
        (c1Seq.notes.map noteTriple) :=
  C1_melody_round_trip c1Conv c1Seq (by decide) (by decide) (by decide)

/-- C4: with all pitches in range, `MelodyConverter.toTensor` raises
`NotMonophonic` exactly when, in the start-step-sorted order, some note
starts strictly before the preceding note ends; otherwise it returns a
buffer (so a note ending exactly where the next starts, or a note
spanning `[0, numSteps]`, encodes without error). -/
theorem C4_notMonophonic_iff (c : MelodyConverter) (ns : NoteSequence)
    (hrange : ∀ n ∈ ns.notes, c.minPitch ≤ n.pitch ∧ n.pitch ≤ c.maxPitch) :
    (MelodyConverter.toTensor c ns = .error .notMonophonic ↔
      overlapsInOrder (melSort ns.notes) = true) ∧
    (overlapsInOrder (melSort ns.notes) = false →
      ∃ buf, MelodyConverter.toTensor c ns = .ok buf) := by
  have hsub := (melSort_perm ns.notes).subset
  have hrange' : ∀ n ∈ melSort ns.notes,
      c.minPitch ≤ n.pitch ∧ n.pitch ≤ c.maxPitch :=
    fun n hn => hrange n (hsub hn)
  have hiff := melFold_notMono_iff c (melSort ns.notes)
    (List.replicate (resolvedNumSteps c.numSteps ns) 0) (-1) hrange'
  have hto : MelodyConverter.toTensor c ns =
      ((melSort ns.notes).foldlM c.encodeNote
        (List.replicate (resolvedNumSteps c.numSteps ns) 0, (-1 : Int)) >>=
        fun st => pure (st.1.map (fun l => oneHot l c.depth))) := rfl
  constructor
  · rw [← melViol_neg_one, ← hiff, hto]
    cases hres : (melSort ns.notes).foldlM c.encodeNote
        (List.replicate (resolvedNumSteps c.numSteps ns) 0, (-1 : Int)) with
    | error e =>
      rw [except_error_bind]
      exact Iff.intro (fun h => by injection h with h1; rw [h1])
        (fun h => by injection h with h1; rw [h1])
    | ok st =>
      exact Iff.intro (fun h => nomatch h) (fun h => nomatch h)
  · intro h
    rw [← melViol_neg_one] at h
    have hok := melFold_ok c (melSort ns.notes)
      (List.replicate (resolvedNumSteps c.numSteps ns) 0) (-1) hrange' h
    refine ⟨((melSort ns.notes).foldl (melWrite c.minPitch)
        (List.replicate (resolvedNumSteps c.numSteps ns) 0)).map
      (fun l => oneHot l c.depth), ?_⟩
    rw [hto, hok]
    rfl

theorem C4_witness :
    ∃ buf, MelodyConverter.toTensor c4Conv c4Seq = .ok buf :=
  (C4_notMonophonic_iff c4Conv c4Seq (by decide)).2 (by decide)

/-- C8 counterexample: a sequence that contains a note with pitch 20
below `minPitch = 21` but whose scan hits a monophony violation first
raises `NotMonophonic`, not `PitchOutOfRange` — so the claim's
unconditional "fails with a PitchOutOfRange error" is false as
stated. -/
theorem C8_counterexample :
    (∃ n ∈ c8Seq.notes, n.pitch < c8Conv.minPitch) ∧
    MelodyConverter.toTensor c8Conv c8Seq = .error .notMonophonic ∧
    MelodyConverter.toTensor c8Conv c8Seq ≠
      .error (.pitchOutOfRange 20) := by
  refine ⟨⟨c8Seq.notes.getLast (by decide), by decide, by decide⟩, ?_, ?_⟩
  · decide
  · decide

theorem melFirstError_cons (c : MelodyConverter) (le : Int) (n : Note)
    (rest : List Note) :
    melFirstError c le (n :: rest) =
      if (n.quantizedStartStep : Int) < le then some .notMonophonic
      else if n.pitch < c.minPitch ∨ c.maxPitch < n.pitch then
        some (.pitchOutOfRange n.pitch)
      else melFirstError c (n.quantizedEndStep : Int) rest := rfl

/-- Total characterization of the encode scan: it returns the first
error of `melFirstError`, and succeeds with the folded writes when
`melFirstError` reports none. -/
theorem melFold_char (c : MelodyConverter) :
    ∀ (ms : List Note) (buf : List Nat) (le : Int),
      ms.foldlM c.encodeNote (buf, le) =
        Option.elim (melFirstError c le ms)
          (.ok (ms.foldl (melWrite c.minPitch) buf,
            ms.foldl (fun _ n => (n.quantizedEndStep : Int)) le))
          Except.error
  | [], buf, le => rfl
  | n :: rest, buf, le => by
    rw [List.foldlM_cons, melFirstError_cons]
    by_cases h1 : (n.quantizedStartStep : Int) < le
    · rw [if_pos h1]
      rw [show c.encodeNote (buf, le) n =
          (.error .notMonophonic : Except ConversionError (List Nat × Int))
        from by simp [MelodyConverter.encodeNote, h1]]
      rfl
    · rw [if_neg h1]
      by_cases h2 : n.pitch < c.minPitch ∨ c.maxPitch < n.pitch
      · rw [if_pos h2]
        rw [show c.encodeNote (buf, le) n =
            (.error (.pitchOutOfRange n.pitch) :
              Except ConversionError (List Nat × Int)) from by
          simp [MelodyConverter.encodeNote, h1, h2]]
        rfl
      · rw [if_neg h2]
        rw [show c.encodeNote (buf, le) n =
            .ok (melWrite c.minPitch buf n, (n.quantizedEndStep : Int)) from by
          simp [MelodyConverter.encodeNote, h1, h2, melWrite, melLabel]]
        rw [show ((Except.ok (melWrite c.minPitch buf n,
              (n.quantizedEndStep : Int)) :
              Except ConversionError (List Nat × Int)) >>=
            fun b => rest.foldlM c.encodeNote b) =
            rest.foldlM c.encodeNote (melWrite c.minPitch buf n,
              (n.quantizedEndStep : Int)) from rfl]
        rw [melFold_char c rest (melWrite c.minPitch buf n)
          (n.quantizedEndStep : Int)]
        rfl

/-- When the scan reaches an out-of-range note with no monophony
violation at or before it, the first error is `PitchOutOfRange` for an
out-of-range pitch (that of the first out-of-range note reached). -/
theorem melFirstError_pitch (c : MelodyConverter) :
    ∀ (l1 : List Note) (n : Note) (l2 : List Note) (le : Int),
      melViol le (l1 ++ [n]) = false →
      (n.pitch < c.minPitch ∨ c.maxPitch < n.pitch) →
      ∃ p, melFirstError c le (l1 ++ n :: l2) = some (.pitchOutOfRange p) ∧
        (p < c.minPitch ∨ c.maxPitch < p)
  | [], n, l2, le, hviol, hbad => by
    rw [List.nil_append] at hviol
    rw [melViol] at hviol
    obtain ⟨hv1, _⟩ := Bool.or_eq_false_iff.mp hviol
    have h1 : ¬ ((n.quantizedStartStep : Int) < le) := of_decide_eq_false hv1
    refine ⟨n.pitch, ?_, hbad⟩
    rw [List.nil_append, melFirstError_cons, if_neg h1, if_pos hbad]
  | m :: l1', n, l2, le, hviol, hbad => by
    rw [List.cons_append] at hviol
    rw [melViol] at hviol
    obtain ⟨hv1, hv2⟩ := Bool.or_eq_false_iff.mp hviol
    have h1 : ¬ ((m.quantizedStartStep : Int) < le) := of_decide_eq_false hv1
    by_cases hbm : m.pitch < c.minPitch ∨ c.maxPitch < m.pitch
    · refine ⟨m.pitch, ?_, hbm⟩
      rw [List.cons_append, melFirstError_cons, if_neg h1, if_pos hbm]
    · obtain ⟨p, hp, hpr⟩ := melFirstError_pitch c l1' n l2
        (m.quantizedEndStep : Int) hv2 hbad
      refine ⟨p, ?_, hpr⟩
      rw [List.cons_append, melFirstError_cons, if_neg h1, if_neg hbm, hp]

/-- When an overlap occurs in the scan and every note at or before the
overlapped note is in range, the first error is `NotMonophonic`. -/
theorem melFirstError_mono (c : MelodyConverter) :
    ∀ (l1 : List Note) (a b : Note) (l2 : List Note) (le : Int),
      (∀ m ∈ l1 ++ [a], c.minPitch ≤ m.pitch ∧ m.pitch ≤ c.maxPitch) →
      b.quantizedStartStep < a.quantizedEndStep →
      melFirstError c le (l1 ++ a :: b :: l2) = some .notMonophonic
  | [], a, b, l2, le, hrange, hov => by
    rw [List.nil_append, melFirstError_cons]
    by_cases h1 : (a.quantizedStartStep : Int) < le
    · rw [if_pos h1]
    · obtain ⟨ha1, ha2⟩ := hrange a (by simp)
      have h2 : ¬ (a.pitch < c.minPitch ∨ c.maxPitch < a.pitch) := by omega
      rw [if_neg h1, if_neg h2, melFirstError_cons,
        if_pos (show (b.quantizedStartStep : Int) <
          (a.quantizedEndStep : Int) from by exact_mod_cast hov)]
  | m :: l1', a, b, l2, le, hrange, hov => by
    rw [List.cons_append, melFirstError_cons]
    by_cases h1 : (m.quantizedStartStep : Int) < le
    · rw [if_pos h1]
    · obtain ⟨hm1, hm2⟩ := hrange m (by simp)
      have h2 : ¬ (m.pitch < c.minPitch ∨ c.maxPitch < m.pitch) := by omega
      rw [if_neg h1, if_neg h2]
      exact melFirstError_mono c l1' a b l2 (m.quantizedEndStep : Int)
        (fun x hx => hrange x (by
          rw [List.cons_append]
          exact List.mem_cons_of_mem m hx)) hov

/-- A scan over a list containing an out-of-range note always reports
some first error. -/
theorem melFirstError_of_bad (c : MelodyConverter) :
    ∀ (ms : List Note) (le : Int),
      (∃ n ∈ ms, n.pitch < c.minPitch ∨ c.maxPitch < n.pitch) →
      ∃ e, melFirstError c le ms = some e
  | [], _, hex => by simp at hex
  | n :: rest, le, hex => by
    rw [melFirstError_cons]
    by_cases h1 : (n.quantizedStartStep : Int) < le
    · exact ⟨.notMonophonic, by rw [if_pos h1]⟩
    · by_cases h2 : n.pitch < c.minPitch ∨ c.maxPitch < n.pitch
      · exact ⟨.pitchOutOfRange n.pitch, by rw [if_neg h1, if_pos h2]⟩
      · rw [if_neg h1, if_neg h2]
        obtain ⟨m, hm, hmbad⟩ := hex
        rcases List.mem_cons.mp hm with rfl | hm'
        · exact absurd hmbad h2
        · exact melFirstError_of_bad c rest (n.quantizedEndStep : Int)
            ⟨m, hm', hmbad⟩

/-- C8 amended: `MelodyConverter.toTensor` fails for every sequence
containing a note with pitch outside `[minPitch, maxPitch]`; whenever
the start-sorted scan reaches an out-of-range note with no monophony
violation at or before it, the error is `PitchOutOfRange` carrying an
out-of-range pitch (even if overlaps occur later in the scan); and
whenever an overlap occurs in the scan before any out-of-range pitch,
the error is `NotMonophonic` instead. -/
theorem C8_amended_pitch_error (c : MelodyConverter) (ns : NoteSequence) :
    ((∃ n ∈ ns.notes, n.pitch < c.minPitch ∨ c.maxPitch < n.pitch) →
      ∃ e, MelodyConverter.toTensor c ns = .error e) ∧
    (∀ l1 n l2, melSort ns.notes = l1 ++ n :: l2 →
      (n.pitch < c.minPitch ∨ c.maxPitch < n.pitch) →
      overlapsInOrder (l1 ++ [n]) = false →
      ∃ p, MelodyConverter.toTensor c ns = .error (.pitchOutOfRange p) ∧
        (p < c.minPitch ∨ c.maxPitch < p)) ∧
    (∀ l1 a b l2, melSort ns.notes = l1 ++ a :: b :: l2 →
      (∀ m ∈ l1 ++ [a], c.minPitch ≤ m.pitch ∧ m.pitch ≤ c.maxPitch) →
      b.quantizedStartStep < a.quantizedEndStep →
      MelodyConverter.toTensor c ns = .error .notMonophonic) := by
  refine ⟨?_, ?_, ?_⟩
  · rintro ⟨n, hn, hbad⟩
    obtain ⟨e, he⟩ := melFirstError_of_bad c (melSort ns.notes) (-1)
      ⟨n, (melSort_perm ns.notes).mem_iff.mpr hn, hbad⟩
    have herr : (melSort ns.notes).foldlM c.encodeNote
        (List.replicate (resolvedNumSteps c.numSteps ns) 0, (-1 : Int)) =
        .error e := by
      rw [melFold_char c (melSort ns.notes)
        (List.replicate (resolvedNumSteps c.numSteps ns) 0) (-1), he]
      rfl
    refine ⟨e, ?_⟩
    rw [MelodyConverter.toTensor, herr]
    rfl
  · intro l1 n l2 hdecomp hbad hviol
    have hv : melViol (-1) (l1 ++ [n]) = false := by
      rw [melViol_neg_one]
      exact hviol
    obtain ⟨p, hp, hpr⟩ := melFirstError_pitch c l1 n l2 (-1) hv hbad
    have herr : (melSort ns.notes).foldlM c.encodeNote
        (List.replicate (resolvedNumSteps c.numSteps ns) 0, (-1 : Int)) =
        .error (.pitchOutOfRange p) := by
      rw [melFold_char c (melSort ns.notes)
        (List.replicate (resolvedNumSteps c.numSteps ns) 0) (-1), hdecomp, hp]
      rfl
    refine ⟨p, ?_, hpr⟩
    rw [MelodyConverter.toTensor, herr]
    rfl
  · intro l1 a b l2 hdecomp hrange hov
    have hfe := melFirstError_mono c l1 a b l2 (-1) hrange hov
    have herr : (melSort ns.notes).foldlM c.encodeNote
        (List.replicate (resolvedNumSteps c.numSteps ns) 0, (-1 : Int)) =
        .error .notMonophonic := by
      rw [melFold_char c (melSort ns.notes)
        (List.replicate (resolvedNumSteps c.numSteps ns) 0) (-1), hdecomp, hfe]
      rfl
    rw [MelodyConverter.toTensor, herr]
    rfl

theorem C8_witness :
    (∃ p, MelodyConverter.toTensor c8Conv c8Seq2 =
        .error (.pitchOutOfRange p) ∧
      (p < c8Conv.minPitch ∨ c8Conv.maxPitch < p)) ∧
    MelodyConverter.toTensor c8Conv c8Seq = .error .notMonophonic :=
  ⟨(C8_amended_pitch_error c8Conv c8Seq2).2.1 [] c8Note [c8D, c8E]
      (by decide) (by decide) (by decide),
    (C8_amended_pitch_error c8Conv c8Seq).2.2 [] c8A c8B [c8C]
      (by decide) (by decide) (by decide)⟩

/-- Invariant of the decode scan: with in-range labels and a
well-formed cursor, every emitted note is in pitch range, has positive
extent ending within the remaining steps, starts no earlier than the
cursor allows, and the emitted list is monophonic in order. -/
theorem melDecodeAux_wf (minPitch maxPitch : Nat) (hmm : minPitch ≤ maxPitch) :
    ∀ (ls : List Nat) (s : Nat) (curr : Option (Nat × Nat)),
      (∀ l ∈ ls, l ≤ maxPitch - minPitch + 2) →
      (∀ p st, curr = some (p, st) → minPitch ≤ p ∧ p ≤ maxPitch ∧ st < s) →
      (∀ n ∈ melDecodeAux minPitch ls s curr,
        (minPitch ≤ n.pitch ∧ n.pitch ≤ maxPitch) ∧
        (n.quantizedStartStep < n.quantizedEndStep ∧
          n.quantizedEndStep ≤ s + ls.length) ∧
        currLB s curr ≤ n.quantizedStartStep) ∧
      List.Chain' (fun a b => a.quantizedEndStep ≤ b.quantizedStartStep)
        (melDecodeAux minPitch ls s curr) := by
  intro ls
  induction ls with
  | nil =>
    intro s curr hls hcurr
    match curr with
    | none =>
      rw [melDecodeAux]
      exact ⟨fun n hn => absurd hn (List.not_mem_nil n), List.chain'_nil⟩
    | some (p, st) =>
      obtain ⟨h1, h2, h3⟩ := hcurr p st rfl
      rw [melDecodeAux]
      refine ⟨?_, List.chain'_singleton _⟩
      intro n hn
      rcases List.mem_singleton.mp hn with rfl
      exact ⟨⟨h1, h2⟩, ⟨h3, by simp⟩, le_refl _⟩
  | cons l ls ih =>
    intro s curr hls hcurr
    have hl := hls l (List.mem_cons_self l ls)
    have hls' : ∀ x ∈ ls, x ≤ maxPitch - minPitch + 2 :=
      fun x hx => hls x (List.mem_cons_of_mem l hx)
    by_cases h0 : l = 0
    · subst h0
      have heq : melDecodeAux minPitch (0 :: ls) s curr =
          melDecodeAux minPitch ls (s + 1) curr := rfl
      have hrec := ih (s + 1) curr hls' (fun p st he => by
        obtain ⟨a, b, c2⟩ := hcurr p st he
        exact ⟨a, b, by omega⟩)
      rw [heq]
      refine ⟨fun n hn => ?_, hrec.2⟩
      obtain ⟨hb, ⟨hlen1, hlen2⟩, hlb⟩ := hrec.1 n hn
      refine ⟨hb, ⟨hlen1, by simp only [List.length_cons]; omega⟩, ?_⟩
      cases curr with
      | none => simp only [currLB] at hlb ⊢; omega
      | some v => exact hlb
    · by_cases h1 : l = 1
      · subst h1
        cases curr with
        | none =>
          have heq : melDecodeAux minPitch (1 :: ls) s none =
              melDecodeAux minPitch ls (s + 1) none := rfl
          have hrec := ih (s + 1) none hls' (fun p st he => nomatch he)
          rw [heq]
          refine ⟨fun n hn => ?_, hrec.2⟩
          obtain ⟨hb, ⟨hlen1, hlen2⟩, hlb⟩ := hrec.1 n hn
          simp only [currLB] at hlb ⊢
          exact ⟨hb, ⟨hlen1, by simp only [List.length_cons]; omega⟩, by omega⟩
        | some v =>
          obtain ⟨p, st⟩ := v
          obtain ⟨hp1, hp2, hst⟩ := hcurr p st rfl
          have heq : melDecodeAux minPitch (1 :: ls) s (some (p, st)) =
              { pitch := p, quantizedStartStep := st, quantizedEndStep := s } ::
                melDecodeAux minPitch ls (s + 1) none := rfl
          have hrec := ih (s + 1) none hls' (fun p' st' he => nomatch he)
          rw [heq]
          constructor
          · intro n hn
            rcases List.mem_cons.mp hn with rfl | hn'
            · exact ⟨⟨hp1, hp2⟩, ⟨hst, by simp only [List.length_cons]; omega⟩,
                le_refl _⟩
            · obtain ⟨hb, ⟨hlen1, hlen2⟩, hlb⟩ := hrec.1 n hn'
              simp only [currLB] at hlb ⊢
              exact ⟨hb, ⟨hlen1, by simp only [List.length_cons]; omega⟩,
                by omega⟩
          · refine List.chain'_cons'.mpr ⟨?_, hrec.2⟩
            intro y hy
            have hy' := List.mem_of_mem_head? hy
            obtain ⟨-, -, hlb⟩ := hrec.1 y hy'
            simp only [currLB] at hlb
            simp only []
            omega
      · obtain ⟨k, rfl⟩ : ∃ k, l = k + 2 := ⟨l - 2, by omega⟩
        have hplo : minPitch ≤ k + 2 - MelodyConverter.FIRST_PITCH + minPitch := by
          omega
        have hphi : k + 2 - MelodyConverter.FIRST_PITCH + minPitch ≤ maxPitch := by
          simp only [MelodyConverter.FIRST_PITCH]
          omega
        cases curr with
        | none =>
          have heq : melDecodeAux minPitch ((k + 2) :: ls) s none =
              melDecodeAux minPitch ls (s + 1)
                (some (k + 2 - MelodyConverter.FIRST_PITCH + minPitch, s)) := rfl
          have hrec := ih (s + 1)
            (some (k + 2 - MelodyConverter.FIRST_PITCH + minPitch, s)) hls'
            (fun p' st' he => by
              injection he with he2
              injection he2 with hea heb
              rw [← hea, ← heb]
              exact ⟨hplo, hphi, by omega⟩)
          rw [heq]
          refine ⟨fun n hn => ?_, hrec.2⟩
          obtain ⟨hb, ⟨hlen1, hlen2⟩, hlb⟩ := hrec.1 n hn
          simp only [currLB] at hlb ⊢
          exact ⟨hb, ⟨hlen1, by simp only [List.length_cons]; omega⟩, hlb⟩
        | some v =>
          obtain ⟨p, st⟩ := v
          obtain ⟨hp1, hp2, hst⟩ := hcurr p st rfl
          have heq : melDecodeAux minPitch ((k + 2) :: ls) s (some (p, st)) =
              { pitch := p, quantizedStartStep := st, quantizedEndStep := s } ::
                melDecodeAux minPitch ls (s + 1)
                  (some (k + 2 - MelodyConverter.FIRST_PITCH + minPitch, s)) := rfl
          have hrec := ih (s + 1)
            (some (k + 2 - MelodyConverter.FIRST_PITCH + minPitch, s)) hls'
            (fun p' st' he => by
              injection he with he2
              injection he2 with hea heb
              rw [← hea, ← heb]
              exact ⟨hplo, hphi, by omega⟩)
          rw [heq]
          constructor
          · intro n hn
            rcases List.mem_cons.mp hn with rfl | hn'
            · exact ⟨⟨hp1, hp2⟩, ⟨hst, by simp only [List.length_cons]; omega⟩,
                le_refl _⟩
            · obtain ⟨hb, ⟨hlen1, hlen2⟩, hlb⟩ := hrec.1 n hn'
              simp only [currLB] at hlb ⊢
              exact ⟨hb, ⟨hlen1, by simp only [List.length_cons]; omega⟩,
                by omega⟩
          · refine List.chain'_cons'.mpr ⟨?_, hrec.2⟩
            intro y hy
            have hy' := List.mem_of_mem_head? hy
            obtain ⟨-, -, hlb⟩ := hrec.1 y hy'
            simp only [currLB] at hlb
            simp only []
            omega

/-- C9: `MelodyConverter.toNoteSequence` always emits a well-formed
monophonic sequence, with no precondition on the buffer contents: every
note satisfies `start < end ≤ rows`, every pitch lies in
`[minPitch, maxPitch]`, and consecutive emitted notes do not overlap. -/
theorem C9_decode_well_formed (c : MelodyConverter) (oh : List (List Int))
    (hconf : c.minPitch ≤ c.maxPitch)
    (hw : ∀ r ∈ oh, r.length = c.depth) :
    (∀ n ∈ (MelodyConverter.toNoteSequence c oh).notes,
      c.minPitch ≤ n.pitch ∧ n.pitch ≤ c.maxPitch ∧
      n.quantizedStartStep < n.quantizedEndStep ∧
      n.quantizedEndStep ≤ oh.length) ∧
    List.Chain' (fun a b => a.quantizedEndStep ≤ b.quantizedStartStep)
      (MelodyConverter.toNoteSequence c oh).notes := by
  have hlab : ∀ l ∈ oh.map jsArgMax, l ≤ c.maxPitch - c.minPitch + 2 := by
    intro l hl
    obtain ⟨r, hr, rfl⟩ := List.mem_map.mp hl
    have hlen := hw r hr
    have hne : r ≠ [] := by
      intro he
      rw [he] at hlen
      simp only [List.length_nil, MelodyConverter.depth,
        MelodyConverter.FIRST_PITCH] at hlen
      omega
    have harg := jsArgMax_lt r hne
    rw [hlen] at harg
    simp only [MelodyConverter.depth, MelodyConverter.FIRST_PITCH] at harg
    omega
  have hwf := melDecodeAux_wf c.minPitch c.maxPitch hconf (oh.map jsArgMax) 0
    none hlab (fun p st h => nomatch h)
  constructor
  · intro n hn
    obtain ⟨⟨hb1, hb2⟩, ⟨hl1, hl2⟩, -⟩ := hwf.1 n hn
    refine ⟨hb1, hb2, hl1, ?_⟩
    simpa using hl2
  · exact hwf.2

theorem C9_witness :
    (∀ n ∈ (MelodyConverter.toNoteSequence c9Conv c9Buf).notes,
      c9Conv.minPitch ≤ n.pitch ∧ n.pitch ≤ c9Conv.maxPitch ∧
      n.quantizedStartStep < n.quantizedEndStep ∧
      n.quantizedEndStep ≤ c9Buf.length) ∧
    List.Chain' (fun a b => a.quantizedEndStep ≤ b.quantizedStartStep)
      (MelodyConverter.toNoteSequence c9Conv c9Buf).notes :=
  C9_decode_well_formed c9Conv c9Buf (by decide) (by decide)

theorem jsGet_set_self (l : List (Option Nat)) (i : Nat) (v : Option Nat) :
    jsArrayGet (jsArraySet l i v) i = v := by
  rw [jsArrayGet, jsArraySet]
  split
  · rw [List.getD_eq_getElem?_getD, List.getElem?_set_self (by simpa)]
    rfl
  · rename_i hge
    rw [List.getD_eq_getElem?_getD]
    rw [List.getElem?_append_right (by simp; omega)]
    simp only [List.length_append, List.length_replicate]
    rw [show i - (l.length + (i - l.length)) = 0 from by omega]
    rfl

theorem jsGet_set_ne (l : List (Option Nat)) (i j : Nat) (v : Option Nat)
    (h : i ≠ j) : jsArrayGet (jsArraySet l i v) j = jsArrayGet l j := by
  rw [jsArrayGet, jsArrayGet, jsArraySet]
  split
  · rw [List.getD_eq_getElem?_getD, List.getElem?_set_ne h,
      List.getD_eq_getElem?_getD]
  · rename_i hge
    rw [List.getD_eq_getElem?_getD, List.getD_eq_getElem?_getD]
    rcases Nat.lt_or_ge j l.length with hj | hj
    · rw [List.getElem?_append_left (by simp; omega),
        List.getElem?_append_left hj]
    · have hR : l[j]? = none := List.getElem?_eq_none (by omega)
      rw [hR]
      rcases Nat.lt_or_ge j i with hji | hji
      · rw [List.getElem?_append_left (by simp; omega),
          List.getElem?_append_right (by omega)]
        rw [List.getElem?_replicate]
        split <;> rfl
      · rw [List.getElem?_eq_none (by simp; omega)]

theorem drumsOneHotToTensor_eq_fold (c : DrumsConverter) (ns : NoteSequence) :
    DrumsOneHotConverter.toTensor c ns =
      (ns.notes.foldl (jsLabelStep c.pitchClasses)
        (List.replicate (resolvedNumSteps c.numSteps ns) (some 0))).map
        (fun x => oneHot (jsToInt32 x) (DrumsOneHotConverter.depth c)) := rfl

theorem jsAdd_none_right (x : Option Nat) : jsAdd x none = none := by
  cases x <;> rfl

/-- Once a step's label has become NaN, later notes keep it NaN. -/
theorem jsLabels_none_stable (pcs : List (List Nat)) :
    ∀ (notes : List Note) (lab : List (Option Nat)) (s : Nat),
      jsArrayGet lab s = none →
      jsArrayGet (notes.foldl (jsLabelStep pcs) lab) s = none
  | [], lab, s, h => h
  | n :: rest, lab, s, h => by
    rw [List.foldl_cons]
    apply jsLabels_none_stable pcs rest
    by_cases he : n.quantizedStartStep = s
    · rw [jsLabelStep, he, jsGet_set_self, h]
      rfl
    · rw [jsLabelStep, jsGet_set_ne _ _ _ _ he, h]

/-- A note with an unmapped pitch makes its step's label NaN. -/
theorem jsLabels_unmapped_none (pcs : List (List Nat)) :
    ∀ (notes : List Note) (lab : List (Option Nat)) (s : Nat),
      (∃ n ∈ notes, n.quantizedStartStep = s ∧ pitchToClass pcs n.pitch = none) →
      jsArrayGet (notes.foldl (jsLabelStep pcs) lab) s = none
  | [], lab, s, hex => by simp at hex
  | n :: rest, lab, s, hex => by
    rw [List.foldl_cons]
    obtain ⟨m, hm, hms, hmc⟩ := hex
    rcases List.mem_cons.mp hm with rfl | hm'
    · apply jsLabels_none_stable pcs rest
      rw [jsLabelStep, hms, jsGet_set_self, hmc]
      simp [jsAdd_none_right]
    · exact jsLabels_unmapped_none pcs rest _ s ⟨m, hm', hms, hmc⟩

theorem jsArraySet_length_ge (l : List (Option Nat)) (i : Nat) (v : Option Nat) :
    l.length ≤ (jsArraySet l i v).length := by
  rw [jsArraySet]
  split
  · simp
  · simp

theorem jsLabels_length_ge (pcs : List (List Nat)) :
    ∀ (notes : List Note) (lab : List (Option Nat)),
      lab.length ≤ (notes.foldl (jsLabelStep pcs) lab).length
  | [], lab => le_refl _
  | n :: rest, lab => by
    rw [List.foldl_cons]
    exact le_trans (jsArraySet_length_ge _ _ _)
      (jsLabels_length_ge pcs rest _)

theorem bufSetFlat_length (buf : List Int) (idx : Option Int) (v : Int) :
    (bufSetFlat buf idx v).length = buf.length := by
  cases idx with
  | none => rfl
  | some i =>
    rw [show bufSetFlat buf (some i) v =
        if 0 ≤ i ∧ i < (buf.length : Int) then buf.set i.toNat v else buf
      from rfl]
    split
    · simp
    · rfl

theorem foldl_length_eq {a : Type} (g : List Int → a → List Int)
    (hg : ∀ buf x, (g buf x).length = buf.length) :
    ∀ (l : List a) (buf : List Int), (l.foldl g buf).length = buf.length
  | [], _ => rfl
  | x :: l, buf => by
    rw [List.foldl_cons, foldl_length_eq g hg l, hg]

theorem drumsToTensor_length (c : DrumsConverter) (ns : NoteSequence) :
    (DrumsConverter.toTensor c ns).length =
      resolvedNumSteps c.numSteps ns * (c.pitchClasses.length + 1) := by
  simp only [DrumsConverter.toTensor]
  rw [foldl_length_eq _ (fun buf n => by
    rw [bufSetFlat_length, bufSetFlat_length])]
  rw [foldl_length_eq _ (fun buf i => bufSetFlat_length _ _ _)]
  simp

/-- C3 counterexample: encoding a sequence whose only note has pitch
40, absent from the pitch-class table `[[36], [38]]`, raises no error in
either drum converter — both calls return a buffer (the one-hot encoder
collapses the step to label 0 after the NaN label is cast to int32, and
the roll encoder silently skips the class write). -/
theorem C3_counterexample :
    pitchToClass c3Drums.pitchClasses 40 = none ∧
    DrumsOneHotConverter.toTensor c3Drums c3Seq =
      [[1, 0, 0, 0], [1, 0, 0, 0]] ∧
    DrumsConverter.toTensor c3Drums c3Seq = [0, 0, 1, 0, 0, 0] := by
  refine ⟨?_, ?_, ?_⟩
  · decide
  · decide
  · decide

/-- C3 amended: a drum-codec encode never fails on an unmapped pitch:
`DrumsOneHotConverter.toTensor` still produces a buffer, with the
unmapped note's step collapsing to label 0 (its NaN label is cast to 0
by the int32 conversion, discarding any mapped hits on the same step),
and `DrumsConverter.toTensor` produces a full-size roll buffer, silently
skipping the unmapped class write. -/
theorem C3_amended_unmapped_silent (c : DrumsConverter) (ns : NoteSequence)
    (s : Nat)
    (hnote : ∃ n ∈ ns.notes, n.quantizedStartStep = s ∧
      pitchToClass c.pitchClasses n.pitch = none)
    (hs : s < resolvedNumSteps c.numSteps ns) :
    (DrumsOneHotConverter.toTensor c ns)[s]? =
      some (oneHot 0 (DrumsOneHotConverter.depth c)) ∧
    (DrumsConverter.toTensor c ns).length =
      resolvedNumSteps c.numSteps ns * (c.pitchClasses.length + 1) := by
  refine ⟨?_, drumsToTensor_length c ns⟩
  rw [drumsOneHotToTensor_eq_fold]
  have hnone := jsLabels_unmapped_none c.pitchClasses ns.notes
    (List.replicate (resolvedNumSteps c.numSteps ns) (some 0)) s hnote
  have hlen : s < (ns.notes.foldl (jsLabelStep c.pitchClasses)
      (List.replicate (resolvedNumSteps c.numSteps ns) (some 0))).length := by
    have := jsLabels_length_ge c.pitchClasses ns.notes
      (List.replicate (resolvedNumSteps c.numSteps ns) (some 0))
    simp at this
    omega
  rw [List.getElem?_map]
  rw [List.getElem?_eq_getElem hlen]
  rw [jsArrayGet, List.getD_eq_getElem?_getD, List.getElem?_eq_getElem hlen]
    at hnone
  simp only [Option.getD_some] at hnone
  rw [hnone]
  rfl

theorem C3_witness :
    (DrumsOneHotConverter.toTensor c3Drums c3Seq2)[0]? =
      some (oneHot 0 (DrumsOneHotConverter.depth c3Drums)) ∧
    (DrumsConverter.toTensor c3Drums c3Seq2).length =
      resolvedNumSteps c3Drums.numSteps c3Seq2 *
        (c3Drums.pitchClasses.length + 1) :=
  C3_amended_unmapped_silent c3Drums c3Seq2 0
    ⟨c3Seq2.notes.getLast (by decide), by decide, by decide, by decide⟩
    (by decide)

/-- Adding `2 ^ c` to a number whose bit `c` is clear sets exactly
that bit. -/
theorem testBit_two_pow_add (c S : Nat) (hS : Nat.testBit S c = false)
    (p : Nat) :
    Nat.testBit (2 ^ c + S) p = (decide (p = c) || Nat.testBit S p) := by
  rcases Nat.lt_trichotomy p c with hlt | rfl | hgt
  · rw [Nat.testBit_two_pow_add_gt hlt]
    simp [Nat.ne_of_lt hlt]
  · rw [Nat.testBit_two_pow_add_eq, hS]
    simp
  · obtain ⟨a, b, hbd, hS2⟩ : ∃ a b, b < 2 ^ (c + 1) ∧ S = 2 ^ (c + 1) * a + b :=
      ⟨S / 2 ^ (c + 1), S % 2 ^ (c + 1), Nat.mod_lt _ (Nat.two_pow_pos _),
        (Nat.div_add_mod S (2 ^ (c + 1))).symm⟩
    subst hS2
    have hbc : Nat.testBit b c = false := by
      have hmod : (2 ^ (c + 1) * a + b) % 2 ^ (c + 1) = b := by
        rw [Nat.mul_add_mod, Nat.mod_eq_of_lt hbd]
      have ht := Nat.testBit_mod_two_pow (2 ^ (c + 1) * a + b) (c + 1) c
      rw [hmod, hS] at ht
      simpa using ht
    have hb2 : b < 2 ^ c := by
      by_contra hge
      push_neg at hge
      have hpow : 2 ^ (c + 1) = 2 ^ c + 2 ^ c := by
        rw [Nat.pow_succ]
        omega
      have hr : b - 2 ^ c < 2 ^ c := by omega
      have hbt : Nat.testBit b c = true := by
        rw [show b = 2 ^ c + (b - 2 ^ c) from by omega,
          Nat.testBit_two_pow_add_eq, Nat.testBit_lt_two_pow hr]
        rfl
      rw [hbt] at hbc
      cases hbc
    have key : ∀ x, x < 2 ^ (c + 1) →
        Nat.testBit (2 ^ (c + 1) * a + x) p = Nat.testBit a (p - (c + 1)) := by
      intro x hx
      rw [Nat.testBit_to_div_mod, Nat.testBit_to_div_mod]
      have hdiv : (2 ^ (c + 1) * a + x) / 2 ^ p = a / 2 ^ (p - (c + 1)) := by
        have hp2 : (2 : Nat) ^ p = 2 ^ (c + 1) * 2 ^ (p - (c + 1)) := by
          rw [← Nat.pow_add]
          congr 1
          omega
        rw [hp2, ← Nat.div_div_eq_div_mul, Nat.mul_add_div (Nat.two_pow_pos _),
          Nat.div_eq_of_lt hx, Nat.add_zero]
      rw [hdiv]
    have h1 : Nat.testBit (2 ^ c + (2 ^ (c + 1) * a + b)) p =
        Nat.testBit a (p - (c + 1)) := by
      rw [show 2 ^ c + (2 ^ (c + 1) * a + b) = 2 ^ (c + 1) * a + (2 ^ c + b)
        from by omega]
      exact key (2 ^ c + b) (by
        have hpow : 2 ^ (c + 1) = 2 ^ c + 2 ^ c := by
          rw [Nat.pow_succ]
          omega
        omega)
    have h2 : Nat.testBit (2 ^ (c + 1) * a + b) p =
        Nat.testBit a (p - (c + 1)) := key b hbd
    rw [h1, h2]
    simp [Nat.ne_of_gt hgt]

/-- Bits of a sum of distinct powers of two are exactly the
exponents. -/
theorem testBit_sum_two_pow :
    ∀ (cs : List Nat), cs.Nodup → ∀ p : Nat,
      Nat.testBit ((cs.map (fun c => 2 ^ c)).sum) p = decide (p ∈ cs)
  | [], _, p => by simp
  | c :: cs, hnd, p => by
    obtain ⟨hnc, hnd'⟩ := List.nodup_cons.mp hnd
    rw [List.map_cons, List.sum_cons,
      testBit_two_pow_add c _
        (by rw [testBit_sum_two_pow cs hnd' c]; simpa using hnc) p,
      testBit_sum_two_pow cs hnd' p]
    by_cases h1 : p = c
    · simp [h1]
    · by_cases h2 : p ∈ cs <;> simp [h1, h2]

theorem sum_two_pow_lt (cs : List Nat) (hnd : cs.Nodup) (C : Nat)
    (hlt : ∀ c ∈ cs, c < C) :
    (cs.map (fun c => 2 ^ c)).sum < 2 ^ C := by
  apply Nat.lt_pow_two_of_testBit
  intro i hi
  rw [testBit_sum_two_pow cs hnd i]
  simp only [decide_eq_false_iff_not]
  intro hmem
  exact absurd (hlt i hmem) (by omega)

theorem getD_set_self (l : List Nat) (i v : Nat) (h : i < l.length) :
    (l.set i v).getD i 0 = v := by
  rw [List.getD_eq_getElem?_getD, List.getElem?_set_self (by simpa)]
  rfl

theorem getD_set_ne (l : List Nat) (i j v : Nat) (h : i ≠ j) :
    (l.set i v).getD j 0 = l.getD j 0 := by
  rw [List.getD_eq_getElem?_getD, List.getElem?_set_ne h,
    List.getD_eq_getElem?_getD]

theorem pitchToClass_fold_mem (pcs : List (List Nat)) (p : Nat) :
    ∀ (l : List Nat) (acc : Option Nat) (c : Nat),
      l.foldl (fun m cl => if p ∈ pcs.getD cl [] then some cl else m) acc =
        some c →
      c ∈ l ∨ acc = some c
  | [], acc, c, h => Or.inr h
  | x :: l, acc, c, h => by
    rw [List.foldl_cons] at h
    rcases pitchToClass_fold_mem pcs p l _ c h with h1 | h2
    · exact Or.inl (List.mem_cons_of_mem x h1)
    · split at h2
      · rcases Option.some.inj h2 with rfl
        exact Or.inl (List.mem_cons_self x l)
      · exact Or.inr h2

theorem pitchToClass_lt (pcs : List (List Nat)) (p c : Nat)
    (h : pitchToClass pcs p = some c) : c < pcs.length := by
  rw [pitchToClass] at h
  rcases pitchToClass_fold_mem pcs p _ none c h with h1 | h2
  · exact List.mem_range.mp h1
  · cases h2

theorem classOf_lt (pcs : List (List Nat)) (n : Note)
    (h : (pitchToClass pcs n.pitch).isSome = true) :
    classOf pcs n < pcs.length := by
  obtain ⟨c, hc⟩ := Option.isSome_iff_exists.mp h
  rw [classOf, hc]
  exact pitchToClass_lt pcs n.pitch c hc

/-- With mapped pitches and in-range starts, the JS label fold
computes the pure-`Nat` fold (no NaN, no array growth). -/
theorem jsLabels_eq_natLabels (pcs : List (List Nat)) :
    ∀ (notes : List Note) (acc : List Nat),
      (∀ n ∈ notes, (pitchToClass pcs n.pitch).isSome = true ∧
        n.quantizedStartStep < acc.length) →
      notes.foldl (jsLabelStep pcs) (acc.map some) =
        (notes.foldl (natLabelStep pcs) acc).map some
  | [], acc, _ => rfl
  | n :: rest, acc, h => by
    obtain ⟨hsome, hlt⟩ := h n (List.mem_cons_self n rest)
    obtain ⟨cl, hcl⟩ := Option.isSome_iff_exists.mp hsome
    have hget : jsArrayGet (acc.map some) n.quantizedStartStep =
        some (acc.getD n.quantizedStartStep 0) := by
      rw [jsArrayGet, List.getD_eq_getElem?_getD, List.getElem?_map,
        List.getElem?_eq_getElem hlt, List.getD_eq_getElem?_getD,
        List.getElem?_eq_getElem hlt]
      rfl
    have hstep : jsLabelStep pcs (acc.map some) n =
        (natLabelStep pcs acc n).map some := by
      rw [jsLabelStep, natLabelStep, hget, hcl]
      rw [show Option.map (fun cl => 2 ^ cl) (some cl) = some (2 ^ cl) from rfl]
      rw [show jsAdd (some (acc.getD n.quantizedStartStep 0)) (some (2 ^ cl)) =
          some (acc.getD n.quantizedStartStep 0 + 2 ^ cl) from rfl]
      rw [jsArraySet, if_pos (by simpa using hlt), List.map_set]
      rw [show classOf pcs n = cl from by rw [classOf, hcl]; rfl]
    rw [List.foldl_cons, List.foldl_cons, hstep]
    apply jsLabels_eq_natLabels pcs rest
    intro m hm
    obtain ⟨a, b⟩ := h m (List.mem_cons_of_mem n hm)
    exact ⟨a, by rwa [natLabelStep, List.length_set]⟩

/-- Pointwise value of the label fold: each step accumulates the
powers of two of the classes of the notes starting there. -/
theorem natLabels_getD (pcs : List (List Nat)) :
    ∀ (notes : List Note) (acc : List Nat) (s : Nat),
      (∀ n ∈ notes, n.quantizedStartStep < acc.length) →
      (notes.foldl (natLabelStep pcs) acc).getD s 0 =
        acc.getD s 0 +
          ((notes.filter (fun n => n.quantizedStartStep == s)).map
            (fun n => 2 ^ classOf pcs n)).sum
  | [], acc, s, _ => by simp
  | n :: rest, acc, s, h => by
    rw [List.foldl_cons, natLabels_getD pcs rest _ s (fun m hm => by
      rw [natLabelStep, List.length_set]
      exact h m (List.mem_cons_of_mem n hm))]
    by_cases he : n.quantizedStartStep = s
    · subst he
      rw [natLabelStep,
        getD_set_self _ _ _ (h n (List.mem_cons_self n rest))]
      rw [List.filter_cons, if_pos (by simp), List.map_cons, List.sum_cons]
      ring
    · rw [natLabelStep, getD_set_ne _ _ _ _ he]
      rw [List.filter_cons, if_neg (by simpa using he)]

theorem natLabels_length (pcs : List (List Nat)) :
    ∀ (notes : List Note) (acc : List Nat),
      (notes.foldl (natLabelStep pcs) acc).length = acc.length
  | [], _ => rfl
  | n :: rest, acc => by
    rw [List.foldl_cons, natLabels_length pcs rest, natLabelStep,
      List.length_set]

/-- Membership characterisation of the drum decode loop. -/
theorem drumsDecodeAux_mem (pcs : List (List Nat)) :
    ∀ (ls : List Nat) (s0 : Nat) (n : Note),
      n ∈ drumsDecodeAux pcs ls s0 ↔
        ∃ i, i < ls.length ∧ ∃ p, p < pcs.length ∧
          ((ls.getD i 0) >>> p) &&& 1 = 1 ∧
          n = { pitch := (pcs.getD p []).headD 0,
                quantizedStartStep := s0 + i,
                quantizedEndStep := s0 + i + 1, isDrum := true }
  | [], s0, n => by simp [drumsDecodeAux]
  | l :: ls, s0, n => by
    rw [drumsDecodeAux, List.mem_append]
    constructor
    · intro h
      rcases h with h1 | h2
      · obtain ⟨p, hp, hpn⟩ := List.mem_filterMap.mp h1
        by_cases hb : (l >>> p) &&& 1 = 1
        · rw [if_pos hb] at hpn
          rcases Option.some.inj hpn with rfl
          exact ⟨0, by simp, p, List.mem_range.mp hp, hb, rfl⟩
        · rw [if_neg hb] at hpn
          cases hpn
      · obtain ⟨i, hi, p, hp, hbit, hn⟩ :=
          (drumsDecodeAux_mem pcs ls (s0 + 1) n).mp h2
        refine ⟨i + 1, by simpa using hi, p, hp, hbit, ?_⟩
        rw [hn, show s0 + 1 + i = s0 + (i + 1) from by omega]
    · rintro ⟨i, hi, p, hp, hbit, rfl⟩
      cases i with
      | zero =>
        left
        refine List.mem_filterMap.mpr ⟨p, List.mem_range.mpr hp, ?_⟩
        rw [if_pos (show l >>> p &&& 1 = 1 from hbit)]
        rfl
      | succ i =>
        right
        refine (drumsDecodeAux_mem pcs ls (s0 + 1) _).mpr
          ⟨i, by simpa using hi, p, hp, hbit, ?_⟩
        rw [show s0 + 1 + i = s0 + (i + 1) from by omega]

theorem shiftAnd_eq_testBit (x p : Nat) :
    ((x >>> p) &&& 1 = 1) ↔ Nat.testBit x p = true := by
  rw [Nat.and_one_is_mod, Nat.shiftRight_eq_div_pow, Nat.testBit_to_div_mod]
  simp

theorem replicate_getD_zero (S i : Nat) :
    (List.replicate S (0 : Nat)).getD i 0 = 0 := by
  rw [List.getD_eq_getElem?_getD, List.getElem?_replicate]
  split <;> rfl

/-- C5: for a drum sequence whose pitches are all in the table, whose
start steps are within `numSteps`, and with at most one note per class
per step, decoding the one-hot encoding reproduces exactly the set of
(representative pitch, start step) pairs, each decoded note being a
one-step drum hit. -/
theorem C5_drums_one_hot_round_trip (c : DrumsConverter) (ns : NoteSequence)
    (hmapped : ∀ n ∈ ns.notes,
      (pitchToClass c.pitchClasses n.pitch).isSome = true)
    (hstart : ∀ n ∈ ns.notes,
      n.quantizedStartStep < resolvedNumSteps c.numSteps ns)
    (hdist : List.Pairwise (fun n m =>
      ¬ (n.quantizedStartStep = m.quantizedStartStep ∧
        classOf c.pitchClasses n = classOf c.pitchClasses m)) ns.notes) :
    ((DrumsConverter.toNoteSequence c
        (DrumsOneHotConverter.toTensor c ns)).notes.map
      (fun n => (n.pitch, n.quantizedStartStep))).toFinset =
      (ns.notes.map (fun n =>
        ((c.pitchClasses.getD (classOf c.pitchClasses n) []).headD 0,
          n.quantizedStartStep))).toFinset ∧
    ∀ n ∈ (DrumsConverter.toNoteSequence c
        (DrumsOneHotConverter.toTensor c ns)).notes,
      n.quantizedEndStep = n.quantizedStartStep + 1 ∧ n.isDrum = true := by
  have hnodup : ∀ i : Nat,
      ((ns.notes.filter (fun n => n.quantizedStartStep == i)).map
        (classOf c.pitchClasses)).Nodup := by
    intro i
    have hp2 := hdist.filter (fun n => n.quantizedStartStep == i)
    have hp3 : List.Pairwise (fun n m =>
        classOf c.pitchClasses n ≠ classOf c.pitchClasses m)
        (ns.notes.filter (fun n => n.quantizedStartStep == i)) := by
      refine hp2.imp_of_mem (fun ha hb hr hcls => ?_)
      rename_i a b
      have hia := (List.mem_filter.mp ha).2
      have hib := (List.mem_filter.mp hb).2
      simp only [beq_iff_eq] at hia hib
      exact hr ⟨by omega, hcls⟩
    exact hp3.map (classOf c.pitchClasses) (fun a b h => h)
  have hsum : ∀ i : Nat,
      (ns.notes.foldl (natLabelStep c.pitchClasses)
        (List.replicate (resolvedNumSteps c.numSteps ns) 0)).getD i 0 =
      (((ns.notes.filter (fun n => n.quantizedStartStep == i)).map
        (classOf c.pitchClasses)).map (fun cl => 2 ^ cl)).sum := by
    intro i
    rw [natLabels_getD c.pitchClasses ns.notes _ i (fun n hn => by
      simpa using hstart n hn)]
    rw [replicate_getD_zero, Nat.zero_add, List.map_map]
    rfl
  have hbound : ∀ i : Nat,
      (ns.notes.foldl (natLabelStep c.pitchClasses)
        (List.replicate (resolvedNumSteps c.numSteps ns) 0)).getD i 0 <
      2 ^ c.pitchClasses.length := by
    intro i
    rw [hsum i]
    apply sum_two_pow_lt _ (hnodup i)
    intro cl hcl
    obtain ⟨m, hm, rfl⟩ := List.mem_map.mp hcl
    exact classOf_lt c.pitchClasses m (hmapped m (List.mem_of_mem_filter hm))
  have hlen : (ns.notes.foldl (natLabelStep c.pitchClasses)
      (List.replicate (resolvedNumSteps c.numSteps ns) 0)).length =
      resolvedNumSteps c.numSteps ns := by
    rw [natLabels_length, List.length_replicate]
  have htensor : DrumsOneHotConverter.toTensor c ns =
      (ns.notes.foldl (natLabelStep c.pitchClasses)
        (List.replicate (resolvedNumSteps c.numSteps ns) 0)).map
        (fun v => oneHot v (2 ^ c.pitchClasses.length)) := by
    rw [drumsOneHotToTensor_eq_fold]
    rw [show List.replicate (resolvedNumSteps c.numSteps ns)
        (some 0 : Option Nat) =
        (List.replicate (resolvedNumSteps c.numSteps ns) 0).map some from by
      rw [List.map_replicate]]
    rw [jsLabels_eq_natLabels c.pitchClasses ns.notes _ (fun n hn =>
      ⟨hmapped n hn, by simpa using hstart n hn⟩)]
    rw [List.map_map]
    rfl
  have hlabels : (DrumsOneHotConverter.toTensor c ns).map jsArgMax =
      ns.notes.foldl (natLabelStep c.pitchClasses)
        (List.replicate (resolvedNumSteps c.numSteps ns) 0) := by
    rw [htensor, List.map_map]
    have hid : ∀ v ∈ ns.notes.foldl (natLabelStep c.pitchClasses)
        (List.replicate (resolvedNumSteps c.numSteps ns) 0),
        jsArgMax (oneHot v (2 ^ c.pitchClasses.length)) = v := by
      intro v hv
      obtain ⟨i, hi, hiv⟩ := List.getElem_of_mem hv
      have hvd : v = (ns.notes.foldl (natLabelStep c.pitchClasses)
          (List.replicate (resolvedNumSteps c.numSteps ns) 0)).getD i 0 := by
        rw [List.getD_eq_getElem?_getD, List.getElem?_eq_getElem hi, hiv]
        rfl
      exact jsArgMax_oneHot v _ (by rw [hvd]; exact hbound i)
    calc List.map (fun v => jsArgMax (oneHot v (2 ^ c.pitchClasses.length)))
          (ns.notes.foldl (natLabelStep c.pitchClasses)
            (List.replicate (resolvedNumSteps c.numSteps ns) 0)) =
        List.map id (ns.notes.foldl (natLabelStep c.pitchClasses)
          (List.replicate (resolvedNumSteps c.numSteps ns) 0)) :=
          List.map_congr_left hid
      _ = _ := List.map_id _
  have hdec : (DrumsConverter.toNoteSequence c
      (DrumsOneHotConverter.toTensor c ns)).notes =
      drumsDecodeAux c.pitchClasses
        (ns.notes.foldl (natLabelStep c.pitchClasses)
          (List.replicate (resolvedNumSteps c.numSteps ns) 0)) 0 := by
    rw [DrumsConverter.toNoteSequence, hlabels]
  refine ⟨?_, ?_⟩
  · apply Finset.ext
    rintro ⟨q, t⟩
    rw [List.mem_toFinset, List.mem_toFinset, List.mem_map, List.mem_map]
    constructor
    · rintro ⟨n, hn, hqt⟩
      rw [hdec] at hn
      obtain ⟨i, hi, p, hp, hbit, rfl⟩ :=
        (drumsDecodeAux_mem c.pitchClasses _ 0 n).mp hn
      simp only [] at hqt
      have htb : Nat.testBit ((ns.notes.foldl (natLabelStep c.pitchClasses)
          (List.replicate (resolvedNumSteps c.numSteps ns) 0)).getD i 0) p =
          true := (shiftAnd_eq_testBit _ p).mp hbit
      rw [hsum i, testBit_sum_two_pow _ (hnodup i) p] at htb
      have hpmem := of_decide_eq_true htb
      obtain ⟨m, hmf, hmcl⟩ := List.mem_map.mp hpmem
      have hmi := (List.mem_filter.mp hmf).2
      simp only [beq_iff_eq] at hmi
      refine ⟨m, List.mem_of_mem_filter hmf, ?_⟩
      rw [hmcl, hmi]
      rw [← hqt]
      simp
    · rintro ⟨m, hm, hqt⟩
      rw [hdec]
      refine ⟨{ pitch := (c.pitchClasses.getD (classOf c.pitchClasses m) []).headD 0
                quantizedStartStep := 0 + m.quantizedStartStep
                quantizedEndStep := 0 + m.quantizedStartStep + 1
                isDrum := true }, ?_, by rw [← hqt]; simp⟩
      apply (drumsDecodeAux_mem c.pitchClasses _ 0 _).mpr
      refine ⟨m.quantizedStartStep, ?_, classOf c.pitchClasses m,
        classOf_lt c.pitchClasses m (hmapped m hm), ?_, rfl⟩
      · rw [hlen]
        exact hstart m hm
      · apply (shiftAnd_eq_testBit _ _).mpr
        rw [hsum m.quantizedStartStep,
          testBit_sum_two_pow _ (hnodup m.quantizedStartStep)]
        apply decide_eq_true
        apply List.mem_map.mpr
        refine ⟨m, List.mem_filter.mpr ⟨hm, by simp⟩, rfl⟩
  · intro n hn
    rw [hdec] at hn
    have := drumsDecodeAux_shape c.pitchClasses _ 0 n hn
    exact ⟨this.2, this.1⟩

theorem C5_witness :
    ((DrumsConverter.toNoteSequence c5Drums
        (DrumsOneHotConverter.toTensor c5Drums c5Seq)).notes.map
      (fun n => (n.pitch, n.quantizedStartStep))).toFinset =
      (c5Seq.notes.map (fun n =>
        ((c5Drums.pitchClasses.getD (classOf c5Drums.pitchClasses n)
          []).headD 0,
          n.quantizedStartStep))).toFinset ∧
    ∀ n ∈ (DrumsConverter.toNoteSequence c5Drums
        (DrumsOneHotConverter.toTensor c5Drums c5Seq)).notes,
      n.quantizedEndStep = n.quantizedStartStep + 1 ∧ n.isDrum = true :=
  C5_drums_one_hot_round_trip c5Drums c5Seq (by decide) (by decide)
    (by decide)

/-- C10: `TrioConverter`'s constructor overwrites the `numSteps` of
all three sub-argument records with `args.numSteps` before building the
sub-converters, so a caller-set sub-`numSteps` is discarded and the
caller's record is observably changed whenever it differed. -/
theorem C10_trio_constructor_mutates_args (args : TrioConverterArgs) :
    (TrioConverter.construct args).2.melArgs.numSteps = args.numSteps ∧
    (TrioConverter.construct args).2.bassArgs.numSteps = args.numSteps ∧
    (TrioConverter.construct args).2.drumsArgs.numSteps = args.numSteps ∧
    (TrioConverter.construct args).1.melConverter =
      MelodyConverter.fromArgs { args.melArgs with numSteps := args.numSteps } ∧
    (TrioConverter.construct args).1.bassConverter =
      MelodyConverter.fromArgs { args.bassArgs with numSteps := args.numSteps } ∧
    (TrioConverter.construct args).1.drumsConverter =
      DrumsConverter.fromArgs { args.drumsArgs with numSteps := args.numSteps } ∧
    (args.melArgs.numSteps ≠ args.numSteps →
      (TrioConverter.construct args).2 ≠ args) := by
  refine ⟨rfl, rfl, rfl, rfl, rfl, rfl, fun h he => h ?_⟩
  have h2 := congrArg (fun a : TrioConverterArgs => a.melArgs.numSteps) he
  simpa [TrioConverter.construct] using h2.symm

theorem C10_witness : (TrioConverter.construct exTrioArgs).2 ≠ exTrioArgs :=
  (C10_trio_constructor_mutates_args exTrioArgs).2.2.2.2.2.2 (by decide)

/-- C2 counterexample: `MelodyConverter.toTensor` does *not* preserve
the order of the input's notes array: `Array.prototype.sort` reorders it
in place, so after a successful encode of a sequence whose notes were
not already in start-step order the caller's sequence has changed. -/
theorem C2_counterexample :
    melToTensorPost c2Seq ≠ c2Seq ∧
    (MelodyConverter.toTensor c2Converter c2Seq).isOk = true := by
  constructor
  · decide
  · decide

/-- C2 amended: encode never modifies any note field and its result is
a pure function of the input sequence and the construction-time
configuration, but `MelodyConverter.toTensor` reorders the input's notes
array in place (a stable sort by start step — a permutation containing
the very same note values); the drum and trio encoders leave the input
entirely unchanged. -/
theorem C2_amended_encode_mutation (ns : NoteSequence) :
    List.Perm (melToTensorPost ns).notes ns.notes ∧
    (melToTensorPost ns).totalQuantizedSteps = ns.totalQuantizedSteps ∧
    drumsToTensorPost ns = ns ∧
    trioToTensorPost ns = ns :=
  ⟨melSort_perm ns.notes, rfl, rfl, rfl⟩

/-- C6: `TrioConverter.toNoteSequence` splits the buffer along the
feature axis into the sub-converters' depths in the order melody, bass,
drums, decodes each part with the corresponding sub-converter, re-tags
melody notes with `instrument = 0, program = 0`, bass notes with
`instrument = 1, program = 32`, drum notes with `instrument = 2`
(keeping `isDrum`), and concatenates the note lists in that order
without re-sorting. -/
theorem C6_trio_decode (c : TrioConverter) (th : List (List Int))
    (hw : ∀ r ∈ th, r.length = c.depth) :
    (TrioConverter.toNoteSequence c th).notes =
      ((c.melConverter.toNoteSequence
          (th.map (fun r => r.take c.melConverter.depth))).notes.map
        (fun n => { n with instrument := 0, program := 0 })) ++
      ((c.bassConverter.toNoteSequence
          (th.map (fun r =>
            (r.drop c.melConverter.depth).take c.bassConverter.depth))).notes.map
        (fun n => { n with instrument := 1, program := 32 })) ++
      ((DrumsConverter.toNoteSequence c.drumsConverter
          (th.map (fun r =>
            r.drop (c.melConverter.depth + c.bassConverter.depth)))).notes.map
        (fun n => { n with instrument := 2 })) ∧
    (∀ n ∈ (TrioConverter.toNoteSequence c th).notes,
      (n.instrument = 0 ∧ n.program = 0) ∨
      (n.instrument = 1 ∧ n.program = 32) ∨
      (n.instrument = 2 ∧ n.isDrum = true)) := by
  have hdrop : th.map (fun r =>
        ((r.drop c.melConverter.depth).drop c.bassConverter.depth).take
          (DrumsOneHotConverter.depth c.drumsConverter)) =
      th.map (fun r =>
        r.drop (c.melConverter.depth + c.bassConverter.depth)) := by
    refine List.map_congr_left (fun r hr => ?_)
    rw [List.drop_drop]
    have hlen : (r.drop (c.melConverter.depth + c.bassConverter.depth)).length ≤
        DrumsOneHotConverter.depth c.drumsConverter := by
      have := hw r hr
      simp only [List.length_drop, this, TrioConverter.depth]
      omega
    rw [List.take_of_length_le hlen]
  constructor
  · simp only [TrioConverter.toNoteSequence, hdrop]
    rfl
  · intro n hn
    simp only [TrioConverter.toNoteSequence, List.mem_append, List.mem_map] at hn
    rcases hn with (⟨m, -, hm⟩ | ⟨m, -, hm⟩) | ⟨m, hmem, hm⟩
    · left; cases hm; exact ⟨rfl, rfl⟩
    · right; left; cases hm; exact ⟨rfl, rfl⟩
    · right; right
      cases hm
      have hd := (drumsDecodeAux_shape c.drumsConverter.pitchClasses _ _ m hmem).1
      exact ⟨rfl, hd⟩

theorem C6_witness :
    ((TrioConverter.toNoteSequence c6Trio c6Buf).notes =
      ((c6Trio.melConverter.toNoteSequence
          (c6Buf.map (fun r => r.take c6Trio.melConverter.depth))).notes.map
        (fun n => { n with instrument := 0, program := 0 })) ++
      ((c6Trio.bassConverter.toNoteSequence
          (c6Buf.map (fun r =>
            (r.drop c6Trio.melConverter.depth).take
              c6Trio.bassConverter.depth))).notes.map
        (fun n => { n with instrument := 1, program := 32 })) ++
      ((DrumsConverter.toNoteSequence c6Trio.drumsConverter
          (c6Buf.map (fun r =>
            r.drop (c6Trio.melConverter.depth +
              c6Trio.bassConverter.depth)))).notes.map
        (fun n => { n with instrument := 2 }))) ∧
    (∀ n ∈ (TrioConverter.toNoteSequence c6Trio c6Buf).notes,
      (n.instrument = 0 ∧ n.program = 0) ∨
      (n.instrument = 1 ∧ n.program = 32) ∨
      (n.instrument = 2 ∧ n.isDrum = true)) :=
  C6_trio_decode c6Trio c6Buf (by decide)

/-- C7: `TrioConverter.toTensor` is the feature-axis concatenation, in
the order melody, bass, drums, of the three sub-encodings of the input
restricted to non-drum notes with program in `[0, 31]`, non-drum notes
with program in `[32, 39]`, and drum notes; a non-drum note with program
at least 40 matches none of the partitions and has no effect on the
result (in particular it raises no error). -/
theorem C7_trio_encode_partitions (c : TrioConverter) (tq : Nat) (n : Note)
    (l1 l2 : List Note) (hdrum : n.isDrum = false) (hprog : 40 ≤ n.program) :
    TrioConverter.toTensor c { notes := l1 ++ n :: l2, totalQuantizedSteps := tq } =
      TrioConverter.toTensor c { notes := l1 ++ l2, totalQuantizedSteps := tq } ∧
    ∀ ns : NoteSequence,
      TrioConverter.toTensor c ns = (do
        let t1 ← c.melConverter.toTensor
          { ns with notes := ns.notes.filter trioMelFilter }
        let t2 ← c.bassConverter.toTensor
          { ns with notes := ns.notes.filter trioBassFilter }
        Except.ok (List.zipWith (· ++ ·) (List.zipWith (· ++ ·) t1 t2)
          (DrumsOneHotConverter.toTensor c.drumsConverter
            { ns with notes := ns.notes.filter (fun x => x.isDrum) }))) := by
  have hmel : trioMelFilter n = false := by
    simp [trioMelFilter, TrioConverter.MEL_PROG_RANGE]
    omega
  have hbass : trioBassFilter n = false := by
    simp [trioBassFilter, TrioConverter.BASS_PROG_RANGE]
    omega
  constructor
  · simp [TrioConverter.toTensor, List.filter_append, hmel, hbass, hdrum]
  · intro ns
    rfl

theorem C7_witness :
    TrioConverter.toTensor c6Trio { notes := [c7Note], totalQuantizedSteps := 2 } =
      TrioConverter.toTensor c6Trio { notes := [], totalQuantizedSteps := 2 } := by
  have h := (C7_trio_encode_partitions c6Trio 2 c7Note [] [] (by decide)
    (by decide)).1
  simpa using h

end Magenta
